import Mathlib

/-!
Verification of the note-decoding core of spotify/basic-pitch-ts (src/toMidi.ts).

Matrices of model activations are embedded as `List (List ℚ)` (row = time
frame, column = pitch bin); the JavaScript floating-point numbers are
modelled by exact rationals, and the frequency-conversion helpers, which use
`Math.log2` and `2 ** x`, are modelled over the reals with `Real.logb` and
real exponentiation.  JavaScript array quirks that the code relies on
(`Array.prototype.fill` truncating and clamping its index arguments,
`Array.prototype.slice` interpreting negative indices relative to the end,
out-of-range reads behaving inertly in comparisons) are reproduced by
explicit helper functions below.  The unbounded `while` loop of the
melodia-trick pass is embedded with an explicit fuel parameter: a result of
`Except.ok none` means the fuel was exhausted with the loop guard still
true, so statements about termination quantify over fuel.
-/

namespace BasicPitchTs

/-- Matrix is the shape of the activation matrices: a list of rows of rationals. -/
abbrev Matrix : Type := List (List ℚ)

/-- NoteEvent mirrors the `NoteEvent` record of toMidi.ts: frame-indexed
start and duration, MIDI pitch, amplitude, and an optional pitch-bend list. -/
structure NoteEvent where
  startFrame : ℤ
  durationFrames : ℤ
  pitchMidi : ℤ
  amplitude : ℚ
  pitchBends : Option (List ℤ) := none
deriving DecidableEq, Repr

/-- MIDI_OFFSET constant of toMidi.ts. -/
def MIDI_OFFSET : ℤ := 21

/-- MAX_FREQ_IDX constant of toMidi.ts. -/
def MAX_FREQ_IDX : ℤ := 87

/-- N_FREQ_BINS_CONTOURS constant of toMidi.ts (88 semitones times 3 bins). -/
def N_FREQ_BINS_CONTOURS : ℤ := 264

/-! ## JavaScript array-index semantics -/

/-- jsNormIdx normalises a (possibly negative) JavaScript array index the way
`Array.prototype.fill` and `Array.prototype.slice` do: a negative index
counts from the end of the array (clamped below at 0), a nonnegative index
is clamped above at the length. -/
def jsNormIdx (len : ℕ) (i : ℤ) : ℕ :=
  if i < 0 then ((len : ℤ) + i).toNat else min i.toNat len

/-- idxMapFrom maps a function of the element index and value over a list,
starting the index count at `i`. -/
def idxMapFrom {α β : Type} (f : ℕ → α → β) : ℕ → List α → List β
  | _, [] => []
  | i, x :: xs => f i x :: idxMapFrom f (i + 1) xs

/-- idxMap maps a function of the element index and value over a list. -/
def idxMap {α β : Type} (f : ℕ → α → β) (l : List α) : List β :=
  idxMapFrom f 0 l

/-- jsFill models `row.fill(v, s, e)` of JavaScript: indices are truncated
integers, normalised by `jsNormIdx`, and the elements at positions
`k ≤ i < fin` are replaced by `v`. -/
def jsFill {α : Type} (row : List α) (v : α) (s e : ℤ) : List α :=
  let k := jsNormIdx row.length s
  let fin := jsNormIdx row.length e
  idxMap (fun i x => if k ≤ i ∧ i < fin then v else x) row

/-- jsSlice models `l.slice(s, e)` of JavaScript: indices normalised by
`jsNormIdx`, returning the elements at positions `k ≤ i < fin`. -/
def jsSlice {α : Type} (l : List α) (s e : ℤ) : List α :=
  (l.take (jsNormIdx l.length e)).drop (jsNormIdx l.length s)

/-- mget reads entry `(i, j)` of a matrix, yielding 0 out of range.  The
claims only use it within bounds, where the default is irrelevant. -/
def mget (A : Matrix) (i j : ℕ) : ℚ :=
  (A.getD i []).getD j 0

/-- mgetZ reads entry `(i, j)` of a matrix at integer indices, yielding 0 for
negative or out-of-range indices. -/
def mgetZ (A : Matrix) (i j : ℤ) : ℚ :=
  if 0 ≤ i ∧ 0 ≤ j then mget A i.toNat j.toNat else 0

/-- mset writes entry `(i, j)` of a matrix; out-of-range writes are dropped
(the decoding claims only perform in-range writes). -/
def mset (A : Matrix) (i j : ℕ) (v : ℚ) : Matrix :=
  A.set i ((A.getD i []).set j v)

/-- msetZ writes entry `(i, j)` of a matrix at integer indices; negative
indices are dropped. -/
def msetZ (A : Matrix) (i j : ℤ) (v : ℚ) : Matrix :=
  if 0 ≤ i ∧ 0 ≤ j then mset A i.toNat j.toNat v else A

/-- intRange a b is the list of integers `a, a+1, …, b-1` (empty if `b ≤ a`). -/
def intRange (a b : ℤ) : List ℤ :=
  (List.range (b - a).toNat).map (fun t : ℕ => a + (t : ℤ))

/-! ## Ported numpy helpers of toMidi.ts -/

/-- argMaxGo is the fold inside `argMax` of toMidi.ts:
`arr.reduce((maxIndex, v, i) => arr[maxIndex] > v ? maxIndex : i, -1)`.
The accumulator starts at `-1`; since `arr[-1]` is `undefined` and
`undefined > v` is false, the first element always replaces it.  On ties the
comparison `arr[maxIndex] > v` is false, so the LATER index wins. -/
def argMaxGo {α : Type} [LinearOrder α] [Inhabited α]
    (arr : List α) : ℤ → ℕ → List α → ℤ
  | acc, _, [] => acc
  | acc, i, v :: rest =>
      argMaxGo arr (if 0 ≤ acc ∧ v < arr.getD acc.toNat default then acc else (i : ℤ))
        (i + 1) rest

/-- argMax mirrors `argMax` of toMidi.ts: `null` on the empty array,
otherwise the index produced by the fold `argMaxGo`. -/
def argMax {α : Type} [LinearOrder α] [Inhabited α] (arr : List α) : Option ℕ :=
  if arr.isEmpty then none else some (argMaxGo arr (-1) 0 arr).toNat

/-- argMaxAxis1 mirrors `argMaxAxis1` of toMidi.ts
(`arr.map(row => argMax(row) as number)`); a `null` produced by an empty row
coerces to 0 in the later arithmetic, which `Option.getD 0` reproduces. -/
def argMaxAxis1 {α : Type} [LinearOrder α] [Inhabited α]
    (arr : List (List α)) : List ℤ :=
  arr.map (fun row => ((argMax row).getD 0 : ℤ))

/-- globalMax mirrors `globalMax` of toMidi.ts:
`array.reduce((prev, row) => Math.max(prev, ...row), 0)` — a fold of `max`
over all entries, initialised with 0. -/
def globalMax (A : Matrix) : ℚ :=
  A.foldl (fun prev row => row.foldl max prev) 0

/-- reduceAxis0 is the common shape of `min3dForAxis0` and `max3dForAxis0` of
toMidi.ts: the first matrix is copied and then combined entrywise with the
remaining ones (the source iterates over the dimensions of the first
matrix; all call sites pass matrices of equal rectangular shape). -/
def reduceAxis0 (f : ℚ → ℚ → ℚ) (arrays : List Matrix) : Matrix :=
  match arrays with
  | [] => []
  | a0 :: rest =>
      idxMap (fun y row => idxMap (fun z v =>
        rest.foldl (fun m a => f m (mget a y z)) v) row) a0

/-- min3dForAxis0 mirrors `min3dForAxis0` of toMidi.ts. -/
def min3dForAxis0 (arrays : List Matrix) : Matrix :=
  reduceAxis0 min arrays

/-- max3dForAxis0 mirrors `max3dForAxis0` of toMidi.ts. -/
def max3dForAxis0 (arrays : List Matrix) : Matrix :=
  reduceAxis0 max arrays

/-- relMaxAt decides whether row `row` is a relative maximum of column `col`
in the sense of `argRelMax` of toMidi.ts: strictly greater than every other
row within `order` of it (row indices clipped to `[0, A.length)`). -/
def relMaxAt (A : Matrix) (row col order : ℕ) : Bool :=
  ((List.range A.length).filter
      (fun r => decide (row ≤ r + order) && decide (r ≤ row + order) && r != row)).all
    (fun r => decide (mget A r col < mget A row col))

/-- argRelMax mirrors `argRelMax` of toMidi.ts: all `(row, col)` relative
maxima, listed column-major (column outer loop) as in the source. -/
def argRelMax (A : Matrix) (order : ℕ := 1) : List (ℕ × ℕ) :=
  (List.range A.headI.length).flatMap (fun col =>
    ((List.range A.length).filter (fun row => relMaxAt A row col order)).map
      (fun row => (row, col)))

/-- whereGreaterPairs collects, row-major, the index pairs of entries
strictly greater than `thresh`, as the double loop of
`whereGreaterThanAxis1` of toMidi.ts does. -/
def whereGreaterPairs (thresh : ℚ) : ℕ → Matrix → List (ℕ × ℕ)
  | _, [] => []
  | i, row :: rest =>
      (idxMap (fun j v => (j, v)) row).filterMap
          (fun jv => if thresh < jv.2 then some (i, jv.1) else none)
        ++ whereGreaterPairs thresh (i + 1) rest

/-- whereGreaterThanAxis1 mirrors `whereGreaterThanAxis1` of toMidi.ts,
returning the row indices and the column indices as two parallel lists. -/
def whereGreaterThanAxis1 (A : Matrix) (thresh : ℚ) : List ℕ × List ℕ :=
  ((whereGreaterPairs thresh 0 A).map Prod.fst,
   (whereGreaterPairs thresh 0 A).map Prod.snd)

/-! ## Ported librosa helpers (real-valued) -/

/-- hzToMidi mirrors `hzToMidi` of toMidi.ts:
`12 * (Math.log2(hz) - Math.log2(440)) + 69`, over the reals. -/
noncomputable def hzToMidi (hz : ℝ) : ℝ :=
  12 * (Real.logb 2 hz - Real.logb 2 440) + 69

/-- midiToHz mirrors `midiToHz` of toMidi.ts: `440 * 2 ** ((midi - 69) / 12)`. -/
noncomputable def midiToHz (midi : ℝ) : ℝ :=
  440 * (2 : ℝ) ^ ((midi - 69) / 12)

/-- jsTrunc models the `ToIntegerOrInfinity` coercion JavaScript applies to
fractional array indices (e.g. in `Array.prototype.fill`): truncation toward
zero. -/
noncomputable def jsTrunc (x : ℝ) : ℤ :=
  if 0 ≤ x then ⌊x⌋ else -⌊-x⌋

/-- jsRound models JavaScript `Math.round`: floor of `x + 1/2`. -/
noncomputable def jsRound (x : ℝ) : ℤ :=
  ⌊x + 1 / 2⌋

/-! ## constrainFrequency -/

/-- constrainFrequencyIdx is the index-level core of `constrainFrequency` of
toMidi.ts, taking the already-computed fill indices: for a present `maxIdx`
every row of `onsets` and `frames` gets `row.fill(0, maxIdx)`, for a present
`minIdx` every row gets `row.fill(0, 0, minIdx)`.  It returns the pair
(onsets, frames) after the in-place mutation the source performs. -/
def constrainFrequencyIdx (onsets frames : Matrix) (maxIdx minIdx : Option ℤ) :
    Matrix × Matrix :=
  let step1 : Matrix × Matrix :=
    match maxIdx with
    | some mi => (onsets.map (fun r => jsFill r 0 mi (r.length : ℤ)),
                  frames.map (fun r => jsFill r 0 mi (r.length : ℤ)))
    | none => (onsets, frames)
  match minIdx with
  | some mi => (step1.1.map (fun r => jsFill r 0 0 mi),
                step1.2.map (fun r => jsFill r 0 0 mi))
  | none => step1

/-- freqToFillIdx is the fill index `hzToMidi(freq) - MIDI_OFFSET` computed
by `constrainFrequency`; the source performs no rounding, so the fractional
value is truncated by `fill` itself (`jsTrunc`). -/
noncomputable def freqToFillIdx (f : ℝ) : ℤ :=
  jsTrunc (hzToMidi f - 21)

/-- freqOptIdx applies the JavaScript truthiness test `if (maxFreq)` (null
and 0 are both falsy, skipping the constraint) and then computes the fill
index. -/
noncomputable def freqOptIdx (f : Option ℝ) : Option ℤ :=
  match f with
  | none => none
  | some x => if x = 0 then none else some (freqToFillIdx x)

/-- constrainFrequency mirrors `constrainFrequency` of toMidi.ts, returning
the mutated (onsets, frames) pair. -/
noncomputable def constrainFrequency (onsets frames : Matrix)
    (maxFreq minFreq : Option ℝ) : Matrix × Matrix :=
  constrainFrequencyIdx onsets frames (freqOptIdx maxFreq) (freqOptIdx minFreq)

/-! ## getInferredOnsets -/

/-- getInferredOnsets mirrors `getInferredOnsets` of toMidi.ts.  For each
`n ∈ [1, nDiff]` it prepends `n` zero rows to `frames`, forms the entrywise
difference of the last and first `frames.length` rows of that padded matrix,
takes the entrywise minimum over the shifts, clamps negatives to 0, zeroes
the first `nDiff` rows, rescales by `globalMax onsets / globalMax frameDiff`
and returns the entrywise maximum with `onsets`.  The length-mismatch throw
in the source compares two slices of provably equal length and is dead code,
so it is not modelled; division by a zero `frameDiffMax`, which yields NaN
in JavaScript, yields 0 here (no claim exercises that case). -/
def getInferredOnsets (onsets frames : Matrix) (nDiff : ℕ := 2) : Matrix :=
  let diffs : List Matrix := (List.range nDiff).map (fun n0 =>
    let n := n0 + 1
    let framesAppended : Matrix :=
      List.replicate n (List.replicate frames.headI.length (0 : ℚ)) ++ frames
    let nPlus := framesAppended.drop n
    let minusN := framesAppended.take (framesAppended.length - n)
    idxMap (fun r row => idxMap (fun c v => v - mget minusN r c) row) nPlus)
  let frameDiff0 := min3dForAxis0 diffs
  let frameDiff1 := frameDiff0.map (fun row => row.map (fun v => max v 0))
  let frameDiff2 := idxMap (fun r row =>
    if r < nDiff then jsFill row 0 0 (row.length : ℤ) else row) frameDiff1
  let onsetMax := globalMax onsets
  let frameDiffMax := globalMax frameDiff2
  let frameDiff3 := frameDiff2.map (fun row => row.map (fun v =>
    onsetMax * v / frameDiffMax))
  max3dForAxis0 [onsets, frameDiff3]

/-! ## outputToNotesPoly -/

/-- peakThresholdMatrix builds the sparse matrix of `outputToNotesPoly`:
zero everywhere except at the relative maxima reported by `argRelMax`
(columns restricted, as in `argRelMax`, to the width of the first row),
where it carries the corresponding entry of `inferredOnsets`. -/
def peakThresholdMatrix (A : Matrix) : Matrix :=
  idxMap (fun r row => idxMap (fun c v =>
    if relMaxAt A r c 1 ∧ c < A.headI.length then v else 0) row) A

/-- kScan is the first while loop of the per-onset extension of
`outputToNotesPoly`: starting at time `i`, it advances while `i < nFrames-1`
and fewer than `tol` consecutive frames have been below `thresh`, counting
the consecutive below-threshold frames in `k`.  The remaining iteration
count `n` is `(nFrames - 1 - i).toNat`, so that `n = 0` exactly when
`i ≥ nFrames - 1`. -/
def kScan (e : Matrix) (thresh : ℚ) (freq : ℤ) (tol : ℕ) :
    ℕ → ℤ → ℕ → ℤ × ℕ
  | 0, i, k => (i, k)
  | n + 1, i, k =>
      if k < tol then
        kScan e thresh freq tol n (i + 1)
          (if mgetZ e i freq < thresh then k + 1 else 0)
      else (i, k)

/-- zeroNeighbors zeroes `e[j][freq]` together with `e[j][freq+1]` when
`freq < MAX_FREQ_IDX` and `e[j][freq-1]` when `freq > 0`, as the three
assignments in `outputToNotesPoly` do. -/
def zeroNeighbors (e : Matrix) (j freq : ℤ) : Matrix :=
  let e1 := msetZ e j freq 0
  let e2 := if freq < MAX_FREQ_IDX then msetZ e1 j (freq + 1) 0 else e1
  if 0 < freq then msetZ e2 j (freq - 1) 0 else e2

/-- sumColumn is `slice(a, b).reduce((s, row) => s + row[freq], 0)`: the sum
of column `freq` over rows `a ≤ j < b`. -/
def sumColumn (A : Matrix) (a b freq : ℤ) : ℚ :=
  ((jsSlice A a b).foldl (fun s row => s + row.getD (if 0 ≤ freq then freq.toNat else row.length) 0) 0)

/-- onsetStep processes one `(noteStartIdx, freqIdx)` pair of the per-onset
phase of `outputToNotesPoly`, threading the remaining-energy matrix and the
accumulated note list. -/
def onsetStep (frames : Matrix) (thresh : ℚ) (minNoteLen : ℤ) (tol : ℕ)
    (nFrames : ℤ) (acc : Matrix × List NoteEvent) (p : ℕ × ℕ) :
    Matrix × List NoteEvent :=
  let start : ℤ := p.1
  let freq : ℤ := p.2
  if nFrames - 1 ≤ start then acc
  else
    let scan := kScan acc.1 thresh freq tol (nFrames - 1 - (start + 1)).toNat
      (start + 1) 0
    let i := scan.1 - scan.2
    if i - start ≤ minNoteLen then acc
    else
      let energy := (intRange start i).foldl (fun e j => zeroNeighbors e j freq) acc.1
      let amplitude := sumColumn frames start i freq / ((i - start : ℤ) : ℚ)
      (energy, acc.2 ++ [{ startFrame := start, durationFrames := i - start,
                           pitchMidi := freq + MIDI_OFFSET, amplitude := amplitude }])

/-- argMaxCellGo is the fold locating the `(row, column)` of the largest
entry of the remaining-energy matrix in `outputToNotesPoly`: each row's
`argMax` column is compared against the value at the accumulator cell, a
strictly greater value replacing it; an empty row (whose `argMax` is `null`,
making the JavaScript comparison false) leaves the accumulator unchanged. -/
def argMaxCellGo (full : Matrix) : ℕ → List (List ℚ) → ℤ × ℤ → ℤ × ℤ
  | _, [], acc => acc
  | r, row :: rest, acc =>
      let acc' := match argMax row with
        | none => acc
        | some c =>
            if mgetZ full acc.1 acc.2 < row.getD c 0 then ((r : ℤ), (c : ℤ)) else acc
      argMaxCellGo full (r + 1) rest acc'

/-- argMaxCell runs `argMaxCellGo` from the initial accumulator `[0, 0]`. -/
def argMaxCell (A : Matrix) : ℤ × ℤ :=
  argMaxCellGo A 0 A (0, 0)

/-- zScan is the forward and backward scan of the melodia-trick pass: at each
step it reads `e[i][freq]` to update the consecutive-below-threshold count
`k`, zeroes the cell and its neighbours, and moves `i` by `step` (`+1`
forward, `-1` backward).  The iteration count `n` encodes the loop bound
(`i < nFrames - 1` forward, `i > 0` backward). -/
def zScan (thresh : ℚ) (freq : ℤ) (tol : ℕ) (step : ℤ) :
    ℕ → Matrix → ℤ → ℕ → Matrix × ℤ × ℕ
  | 0, e, i, k => (e, i, k)
  | n + 1, e, i, k =>
      if k < tol then
        zScan thresh freq tol step n (zeroNeighbors e i freq) (i + step)
          (if mgetZ e i freq < thresh then k + 1 else 0)
      else (e, i, k)

/-- melodiaStep is the body of the melodia-trick while loop of
`outputToNotesPoly`, run when the guard `globalMax remainingEnergy > thresh`
holds: locate and zero the peak, scan forward and backward, signal the two
invariant-violation errors, and otherwise append the note unless it is too
short.  It returns the updated energy and note list. -/
def melodiaStep (frames : Matrix) (thresh : ℚ) (minNoteLen : ℤ) (tol : ℕ)
    (nFrames : ℤ) (energy : Matrix) (notes : List NoteEvent) :
    Except String (Matrix × List NoteEvent) :=
  let c := argMaxCell energy
  let iMid := c.1
  let freq := c.2
  let e0 := msetZ energy iMid freq 0
  let fwd := zScan thresh freq tol 1 (nFrames - 1 - (iMid + 1)).toNat e0 (iMid + 1) 0
  let iEnd := fwd.2.1 - 1 - (fwd.2.2 : ℤ)
  let bwd := zScan thresh freq tol (-1) (iMid - 1).toNat fwd.1 (iMid - 1) 0
  let iStart := bwd.2.1 + 1 + (bwd.2.2 : ℤ)
  if iStart < 0 then Except.error "iStart is not positive"
  else if nFrames ≤ iEnd then Except.error "iEnd is past end of times"
  else
    let amplitude := sumColumn frames iStart iEnd freq / ((iEnd - iStart : ℤ) : ℚ)
    if iEnd - iStart ≤ minNoteLen then Except.ok (bwd.1, notes)
    else Except.ok (bwd.1, notes ++
      [{ startFrame := iStart, durationFrames := iEnd - iStart,
         pitchMidi := freq + MIDI_OFFSET, amplitude := amplitude }])

/-- melodiaLoop is the melodia-trick while loop with an explicit fuel:
`Except.ok none` means the fuel ran out with the guard still true,
`Except.ok (some (energy, notes))` that the guard became false, and
`Except.error` that an invariant-violation branch fired. -/
def melodiaLoop (frames : Matrix) (thresh : ℚ) (minNoteLen : ℤ) (tol : ℕ)
    (nFrames : ℤ) : ℕ → Matrix → List NoteEvent →
    Except String (Option (Matrix × List NoteEvent))
  | 0, energy, notes =>
      if thresh < globalMax energy then Except.ok none
      else Except.ok (some (energy, notes))
  | fuel + 1, energy, notes =>
      if thresh < globalMax energy then
        match melodiaStep frames thresh minNoteLen tol nFrames energy notes with
        | Except.error msg => Except.error msg
        | Except.ok st => melodiaLoop frames thresh minNoteLen tol nFrames fuel st.1 st.2
      else Except.ok (some (energy, notes))

/-- outputToNotesPolyIdx is `outputToNotesPoly` of toMidi.ts with the
frequency bounds already converted to fill indices, with an explicit fuel
for the melodia while loop, and returning alongside the note list the
`frames` and `onsets` matrices as left by the in-place mutation of
`constrainFrequency` (the only mutation of the caller's matrices).  The
`frameThresh === null` branch of the source is dead code for a
number-valued `frameThresh` and is not modelled. -/
def outputToNotesPolyIdx (fuel : ℕ) (frames onsets : Matrix)
    (onsetThresh frameThresh : ℚ) (minNoteLen : ℤ) (inferOnsets : Bool)
    (maxIdx minIdx : Option ℤ) (melodiaTrick : Bool) (energyTolerance : ℕ) :
    Except String (Option (List NoteEvent)) × Matrix × Matrix :=
  let nFrames : ℤ := frames.length
  let cf := constrainFrequencyIdx onsets frames maxIdx minIdx
  let onsets1 := cf.1
  let frames1 := cf.2
  let inferredOnsets := if inferOnsets then getInferredOnsets onsets1 frames1 else onsets1
  let ptm := peakThresholdMatrix inferredOnsets
  let w := whereGreaterThanAxis1 ptm onsetThresh
  let pairs := w.1.reverse.zip w.2.reverse
  let folded := pairs.foldl
    (onsetStep frames1 frameThresh minNoteLen energyTolerance nFrames)
    (frames1, [])
  if melodiaTrick then
    ((melodiaLoop frames1 frameThresh minNoteLen energyTolerance nFrames
        fuel folded.1 folded.2).map (fun o => o.map (fun st => st.2)),
      frames1, onsets1)
  else (Except.ok (some folded.2), frames1, onsets1)

/-- outputToNotesPoly mirrors `outputToNotesPoly` of toMidi.ts, with
Hz-valued frequency bounds. -/
noncomputable def outputToNotesPoly (fuel : ℕ) (frames onsets : Matrix)
    (onsetThresh frameThresh : ℚ) (minNoteLen : ℤ) (inferOnsets : Bool)
    (maxFreq minFreq : Option ℝ) (melodiaTrick : Bool) (energyTolerance : ℕ) :
    Except String (Option (List NoteEvent)) × Matrix × Matrix :=
  outputToNotesPolyIdx fuel frames onsets onsetThresh frameThresh minNoteLen
    inferOnsets (freqOptIdx maxFreq) (freqOptIdx minFreq) melodiaTrick
    energyTolerance

/-! ## addPitchBendsToNoteEvents -/

/-- RMatrix is the type of the contours matrix, whose entries (and the
Gaussian window weights) are modelled over the reals. -/
abbrev RMatrix : Type := List (List ℝ)

/-- gaussian mirrors `gaussian` of toMidi.ts:
`exp(-1 * (n - (M-1)/2)^2 / (2 * std^2))` for `n = 0, …, M-1`. -/
noncomputable def gaussian (M : ℕ) (std : ℝ) : List ℝ :=
  (List.range M).map (fun n =>
    Real.exp ((-1) * ((n : ℝ) - ((M : ℝ) - 1) / 2) ^ 2 / (2 * std ^ 2)))

/-- midiPitchToContourBin mirrors `midiPitchToContourBin` of toMidi.ts:
`12 * CONTOURS_BINS_PER_SEMITONE * Math.log2(midiToHz(pitchMidi) / 27.5)`. -/
noncomputable def midiPitchToContourBin (pitchMidi : ℝ) : ℝ :=
  12 * 3 * Real.logb 2 (midiToHz pitchMidi / 27.5)

/-- pitchBendsOf computes the pitch-bend list `addPitchBendsToNoteEvents`
attaches to one note.  The source computes
`freqIdx = Math.floor(Math.round(midiPitchToContourBin(pitchMidi)))`; since
`Math.round` already yields an integer the outer floor is the identity, so
`freqIdx = jsRound (midiPitchToContourBin pitchMidi)` here. -/
noncomputable def pitchBendsOf (contours : RMatrix) (nBinsTolerance : ℕ)
    (note : NoteEvent) : List ℤ :=
  let windowLength : ℕ := nBinsTolerance * 2 + 1
  let freqGaussian := gaussian windowLength 5
  let freqIdx : ℤ := jsRound (midiPitchToContourBin (note.pitchMidi : ℝ))
  let freqStartIdx : ℤ := max (freqIdx - nBinsTolerance) 0
  let freqEndIdx : ℤ := min N_FREQ_BINS_CONTOURS (freqIdx + nBinsTolerance + 1)
  let freqGaussianSub := jsSlice freqGaussian
    (max 0 (nBinsTolerance - freqIdx))
    ((windowLength : ℤ) - max 0 (freqIdx - (N_FREQ_BINS_CONTOURS - nBinsTolerance - 1)))
  let pitchBendSubmatrix : RMatrix :=
    (jsSlice contours note.startFrame (note.startFrame + note.durationFrames)).map
      (fun d => idxMap (fun col v => v * freqGaussianSub.getD col 0)
        (jsSlice d freqStartIdx freqEndIdx))
  let pbShift : ℤ := nBinsTolerance - max 0 ((nBinsTolerance : ℤ) - freqIdx)
  (argMaxAxis1 pitchBendSubmatrix).map (fun v => v - pbShift)

/-- addPitchBendsToNoteEvents mirrors `addPitchBendsToNoteEvents` of
toMidi.ts: every note is returned with its pitch-bend list attached. -/
noncomputable def addPitchBendsToNoteEvents (contours : RMatrix)
    (notes : List NoteEvent) (nBinsTolerance : ℕ := 25) : List NoteEvent :=
  notes.map (fun note => { note with
    pitchBends := some (pitchBendsOf contours nBinsTolerance note) })

/-! ## Auxiliary predicates and spec-side definitions used by the claims -/

/-- exceptIsOk is true exactly when an `Except` value is `ok` (no error was
thrown). -/
def exceptIsOk {ε α : Type} : Except ε α → Bool
  | Except.ok _ => true
  | Except.error _ => false

/-- HasWidth A w states that every row of `A` has length `w`. -/
def HasWidth (A : Matrix) (w : ℕ) : Prop :=
  ∀ r ∈ A, r.length = w

instance hasWidthDecidable (A : Matrix) (w : ℕ) : Decidable (HasWidth A w) :=
  decidable_of_iff (∀ r ∈ A, r.length = w) Iff.rfl

/-- NoteOk T minNoteLen e is the record invariant the claims state for an
emitted note: nonnegative start, end within the `T` frames, duration
strictly above `minNoteLen`, and MIDI pitch on the 88-key piano range. -/
def NoteOk (T minNoteLen : ℤ) (e : NoteEvent) : Prop :=
  0 ≤ e.startFrame ∧ e.startFrame + e.durationFrames ≤ T ∧
  minNoteLen < e.durationFrames ∧ 21 ≤ e.pitchMidi ∧ e.pitchMidi ≤ 108

/-- countAbove counts the entries of a matrix strictly greater than
`thresh`; it is the termination measure of the melodia-trick loop. -/
def countAbove (thresh : ℚ) (A : Matrix) : ℕ :=
  (A.map (fun row => row.countP (fun v => decide (thresh < v)))).sum

/-- constrainSpecRow is the row transformation the frequency-constraint
claim describes: entries at column `j` with `maxIdx ≤ j` or `j < minIdx`
become 0, the others are unchanged, and an absent bound constrains
nothing. -/
def constrainSpecRow (maxIdx minIdx : Option ℤ) (row : List ℚ) : List ℚ :=
  idxMap (fun j v =>
    if maxIdx.any (fun m => decide (m ≤ (j : ℤ))) ||
       minIdx.any (fun m => decide ((j : ℤ) < m)) then 0 else v) row

/-- framesShiftedSpec follows the onset-inference claim: `frames` prepended
with `n` zero rows and truncated to the original number of rows. -/
def framesShiftedSpec (frames : Matrix) (n : ℕ) : Matrix :=
  (List.replicate n (List.replicate frames.headI.length (0 : ℚ)) ++ frames).take
    frames.length

/-- clampedDiffSpec is the clamped shift-difference matrix of the onset
inference claim: entrywise differences of `frames` with its 1- and 2-shifted
copies, entrywise minimum over the two shifts, negatives clamped to 0, the
first 2 rows zeroed. -/
def clampedDiffSpec (frames : Matrix) : Matrix :=
  let diff := fun n => List.zipWith (List.zipWith (fun a b => a - b)) frames
    (framesShiftedSpec frames n)
  let m := List.zipWith (List.zipWith min) (diff 1) (diff 2)
  let clamped := m.map (fun row => row.map (fun v => max v 0))
  idxMap (fun r row =>
    if r < 2 then List.replicate row.length (0 : ℚ) else row) clamped

/-- inferredOnsetsSpec is the reference definition of onset inference as the
claim states it: the clamped shift-difference matrix rescaled so its global
maximum equals `globalMax onsets`, and the entrywise maximum with `onsets`
returned. -/
def inferredOnsetsSpec (onsets frames : Matrix) : Matrix :=
  let zeroed := clampedDiffSpec frames
  let scale := globalMax onsets / globalMax zeroed
  let rescaled := zeroed.map (fun row => row.map (fun v => scale * v))
  List.zipWith (List.zipWith max) onsets rescaled

/-- zeroMat88 is the 1-by-88 all-zero matrix used as a concrete input. -/
def zeroMat88 : Matrix :=
  [List.replicate 88 (0 : ℚ)]

/-- melodiaLoopStuck states that on the 1-by-88 zero matrices with
`frameThresh = -1` (and the melodia trick on) the melodia while loop of
`outputToNotesPoly` never exits, whatever fuel it is given: the guard
`globalMax remainingEnergy > frameThresh` holds forever because `globalMax`
of the all-zero matrix is 0 and zeroing cells makes no progress. -/
def melodiaLoopStuck : Prop :=
  ∀ fuel : ℕ,
    (outputToNotesPoly fuel zeroMat88 zeroMat88 1 (-1) 5 false none none true 11).1
      = Except.ok none

/-- cexContours is the 1-by-264 all-zero contour matrix used as a concrete
input to `addPitchBendsToNoteEvents`. -/
def cexContours : RMatrix :=
  [List.replicate 264 (0 : ℝ)]

/-- cexNote is a note with a negative `durationFrames` that nonetheless has a
nonnegative start and ends within a 1-row contour matrix. -/
def cexNote : NoteEvent :=
  { startFrame := 1, durationFrames := -1, pitchMidi := 21, amplitude := 0,
    pitchBends := none }

/-- pbWitnessNote is a zero-duration note on the 88-key range. -/
def pbWitnessNote : NoteEvent :=
  { startFrame := 0, durationFrames := 0, pitchMidi := 21, amplitude := 0,
    pitchBends := none }

/-- cexFreq is the frequency 440·2^((7/10)/12) Hz, whose hzToMidi value is
exactly 69.7: the rounded index and the truncated fill index differ there. -/
noncomputable def cexFreq : ℝ :=
  440 * (2 : ℝ) ^ ((7 / 10 : ℝ) / 12)

/-- onesMat88 is the 1-by-88 all-ones matrix used as a concrete input. -/
def onesMat88 : Matrix :=
  [List.replicate 88 (1 : ℚ)]

/-- wOnsets is a 3-by-1 onsets matrix used as a concrete input to
getInferredOnsets. -/
def wOnsets : Matrix :=
  [[1], [0], [0]]

/-- wFrames is a 3-by-1 frames matrix whose clamped shift-difference matrix
has a positive entry (at row 2). -/
def wFrames : Matrix :=
  [[0], [0], [1]]

deriving instance DecidableEq for Except

/-! # Lemmas about the list and matrix helpers -/

theorem idxMapFrom_length {α β : Type} (f : ℕ → α → β) (i : ℕ) (l : List α) :
    (idxMapFrom f i l).length = l.length := by
  induction l generalizing i with
  | nil => rfl
  | cons x xs ih => simp [idxMapFrom, ih]

theorem idxMap_length {α β : Type} (f : ℕ → α → β) (l : List α) :
    (idxMap f l).length = l.length :=
  idxMapFrom_length f 0 l

theorem idxMapFrom_getElem? {α β : Type} (f : ℕ → α → β) (i j : ℕ) (l : List α) :
    (idxMapFrom f i l)[j]? = l[j]?.map (f (i + j)) := by
  induction l generalizing i j with
  | nil => simp [idxMapFrom]
  | cons x xs ih =>
    cases j with
    | zero => simp [idxMapFrom]
    | succ j =>
      have h : i + 1 + j = i + (j + 1) := by omega
      simp only [idxMapFrom, List.getElem?_cons_succ]
      rw [ih (i + 1) j, h]

theorem idxMap_getElem? {α β : Type} (f : ℕ → α → β) (j : ℕ) (l : List α) :
    (idxMap f l)[j]? = l[j]?.map (f j) := by
  simpa using idxMapFrom_getElem? f 0 j l

theorem mem_idxMap {α β : Type} {f : ℕ → α → β} {l : List α} {x : β} :
    x ∈ idxMap f l ↔ ∃ j, ∃ h : j < l.length, f j l[j] = x := by
  constructor
  · intro hx
    rcases List.mem_iff_getElem.1 hx with ⟨j, hj, hval⟩
    have hj' : j < l.length := by simpa [idxMap_length] using hj
    refine ⟨j, hj', ?_⟩
    have := idxMap_getElem? f j l
    rw [List.getElem?_eq_getElem hj, List.getElem?_eq_getElem hj'] at this
    simpa [hval] using this.symm
  · rintro ⟨j, hj, hval⟩
    have hj' : j < (idxMap f l).length := by simpa [idxMap_length] using hj
    refine List.mem_iff_getElem.2 ⟨j, hj', ?_⟩
    have h2 := idxMap_getElem? f j l
    rw [List.getElem?_eq_getElem hj, List.getElem?_eq_getElem hj'] at h2
    exact (Option.some.inj (by simpa using h2)).trans hval

theorem jsFill_length {α : Type} (row : List α) (v : α) (s e : ℤ) :
    (jsFill row v s e).length = row.length := by
  simp [jsFill, idxMap_length]

theorem jsFill_getElem? {α : Type} (row : List α) (v : α) (s e : ℤ) (j : ℕ) :
    (jsFill row v s e)[j]? = row[j]?.map
      (fun x => if jsNormIdx row.length s ≤ j ∧ j < jsNormIdx row.length e
        then v else x) := by
  simp [jsFill, idxMap_getElem?]

theorem jsSlice_length {α : Type} (l : List α) (s e : ℤ) :
    (jsSlice l s e).length
      = jsNormIdx l.length e - jsNormIdx l.length s := by
  simp only [jsSlice, List.length_drop, List.length_take]
  have : jsNormIdx l.length e ≤ l.length := by
    unfold jsNormIdx
    split <;> omega
  omega

theorem mget_eq_getElem? (A : Matrix) (i j : ℕ) :
    mget A i j = ((A[i]?.getD [])[j]?).getD 0 := by
  simp [mget, List.getD_eq_getElem?_getD]

theorem mget_congr_rows {A B : Matrix} (i j : ℕ) (h : A[i]? = B[i]?) :
    mget A i j = mget B i j := by
  simp [mget_eq_getElem?, h]

theorem mset_length (A : Matrix) (i j : ℕ) (v : ℚ) :
    (mset A i j v).length = A.length := by
  simp [mset]

theorem mset_getElem? (A : Matrix) (i j : ℕ) (v : ℚ) (r : ℕ) :
    (mset A i j v)[r]? = if i = r ∧ i < A.length
      then some ((A.getD i []).set j v) else A[r]? := by
  rw [mset, List.getElem?_set]
  by_cases h : i = r
  · subst h
    by_cases hi : i < A.length
    · simp [hi]
    · simp [hi, List.getElem?_eq_none (show A.length ≤ i by omega)]
  · simp [h]

theorem hasWidth_iff {A : Matrix} {w : ℕ} :
    HasWidth A w ↔ ∀ i, (h : i < A.length) → A[i].length = w := by
  constructor
  · intro hA i h
    exact hA _ (List.getElem_mem h)
  · intro h r hr
    rcases List.mem_iff_getElem.1 hr with ⟨i, hi, rfl⟩
    exact h i hi

theorem hasWidth_mset {A : Matrix} {w : ℕ} (hA : HasWidth A w) (i j : ℕ) (v : ℚ) :
    HasWidth (mset A i j v) w := by
  intro r hr
  by_cases hi : i < A.length
  · rcases List.mem_or_eq_of_mem_set hr with h | h
    · exact hA _ h
    · subst h
      rw [List.length_set]
      have hw := hasWidth_iff.1 hA i hi
      rw [List.getD_eq_getElem?_getD, List.getElem?_eq_getElem hi]
      simpa using hw
  · have hset : A.set i ((A.getD i []).set j v) = A :=
      List.set_eq_of_length_le (by omega)
    rw [mset, hset] at hr
    exact hA _ hr

theorem intRange_length (a b : ℤ) : (intRange a b).length = (b - a).toNat := by
  rw [intRange, List.length_map, List.length_range]

theorem mem_intRange {a b x : ℤ} : x ∈ intRange a b ↔ a ≤ x ∧ x < b := by
  rw [intRange]
  simp only [List.mem_map, List.mem_range]
  constructor
  · rintro ⟨t, ht, rfl⟩
    constructor
    · omega
    · omega
  · intro hx
    refine ⟨(x - a).toNat, ?_, ?_⟩
    · omega
    · omega

/-! # argMax lemmas -/

theorem argMaxGo_cases {α : Type} [LinearOrder α] [Inhabited α] (arr : List α) :
    ∀ (rest : List α) (i : ℕ) (acc : ℤ),
      argMaxGo arr acc i rest = acc ∨
      ∃ j : ℕ, i ≤ j ∧ j < i + rest.length ∧ argMaxGo arr acc i rest = (j : ℤ) := by
  intro rest
  induction rest with
  | nil =>
    intro i acc
    left
    rfl
  | cons v xs ih =>
    intro i acc
    rw [argMaxGo]
    by_cases hc : 0 ≤ acc ∧ v < arr.getD acc.toNat default
    · rw [if_pos hc]
      rcases ih (i + 1) acc with h | ⟨j, hj1, hj2, h⟩
      · left
        exact h
      · right
        refine ⟨j, by omega, by simp only [List.length_cons]; omega, h⟩
    · rw [if_neg hc]
      rcases ih (i + 1) (i : ℤ) with h | ⟨j, hj1, hj2, h⟩
      · right
        exact ⟨i, le_refl _, by simp only [List.length_cons]; omega, h⟩
      · right
        exact ⟨j, by omega, by simp only [List.length_cons]; omega, h⟩

theorem argMax_lt_length {α : Type} [LinearOrder α] [Inhabited α]
    {arr : List α} {c : ℕ} (h : argMax arr = some c) : c < arr.length := by
  rw [argMax] at h
  by_cases he : arr.isEmpty
  · rw [if_pos he] at h
    cases h
  · rw [if_neg he] at h
    have hne : arr ≠ [] := by simpa [List.isEmpty_iff] using he
    have hlen : 0 < arr.length := List.length_pos.2 hne
    injection h with h
    rcases argMaxGo_cases arr arr 0 (-1) with hcase | ⟨j, _, hj2, hcase⟩
    · rw [hcase] at h
      omega
    · rw [hcase] at h
      omega

theorem argMaxGo_attains {α : Type} [LinearOrder α] [Inhabited α] (arr : List α) :
    ∀ (rest : List α) (i : ℕ) (acc : ℤ),
      arr.drop i = rest →
      (0 ≤ acc → ∀ x ∈ arr.take i, x ≤ arr.getD acc.toNat default) →
      (acc < 0 → i = 0) →
      ∀ x ∈ arr, x ≤ arr.getD (argMaxGo arr acc i rest).toNat default := by
  intro rest
  induction rest with
  | nil =>
    intro i acc hdrop hacc hneg x hx
    have htake : arr.take i = arr := by
      have : arr.length ≤ i := by
        have := congrArg List.length hdrop
        simp only [List.length_drop, List.length_nil] at this
        omega
      exact List.take_of_length_le this
    rcases lt_or_le acc 0 with hlt | hge
    · have hi := hneg hlt
      subst hi
      simp only [List.drop_zero] at hdrop
      subst hdrop
      cases hx
    · rw [argMaxGo]
      refine hacc hge x ?_
      rw [htake]
      exact hx
  | cons v xs ih =>
    intro i acc hdrop hacc hneg x hx
    have hget : arr[i]? = some v := by
      have h0 := List.getElem?_drop arr i 0
      rw [hdrop] at h0
      simpa using h0.symm
    have hdrop' : arr.drop (i + 1) = xs := by
      rw [← List.tail_drop, hdrop]
      rfl
    have htake' : arr.take (i + 1) = arr.take i ++ [v] := by
      rw [List.take_succ, hget]
      rfl
    have hvget : arr.getD i default = v := by
      rw [List.getD_eq_getElem?_getD, hget]
      rfl
    rw [argMaxGo]
    by_cases hc : 0 ≤ acc ∧ v < arr.getD acc.toNat default
    · rw [if_pos hc]
      refine ih (i + 1) acc hdrop' ?_ (by omega) x hx
      intro hge y hy
      rw [htake'] at hy
      rcases List.mem_append.1 hy with hy | hy
      · exact hacc hge y hy
      · have : y = v := by simpa using hy
        subst this
        exact le_of_lt hc.2
    · rw [if_neg hc]
      refine ih (i + 1) (i : ℤ) hdrop' ?_ (by omega) x hx
      intro _ y hy
      rw [htake'] at hy
      simp only [Int.toNat_natCast, hvget]
      rcases List.mem_append.1 hy with hy | hy
      · rcases lt_or_le acc 0 with hlt | hge
        · have := hneg hlt
          subst this
          cases hy
        · have h2 : ¬ v < arr.getD acc.toNat default := fun hv => hc ⟨hge, hv⟩
          exact le_trans (hacc hge y hy) (le_of_not_lt h2)
      · have : y = v := by simpa using hy
        subst this
        exact le_refl _

theorem argMax_attains {α : Type} [LinearOrder α] [Inhabited α]
    {arr : List α} {c : ℕ} (h : argMax arr = some c) :
    ∀ x ∈ arr, x ≤ arr.getD c default := by
  rw [argMax] at h
  by_cases he : arr.isEmpty
  · rw [if_pos he] at h
    cases h
  · rw [if_neg he] at h
    injection h with h
    intro x hx
    rw [← h]
    exact argMaxGo_attains arr arr 0 (-1) rfl (by intro h0; cases h0) (fun _ => rfl) x hx

theorem argMax_eq_none_iff {α : Type} [LinearOrder α] [Inhabited α]
    {arr : List α} : argMax arr = none ↔ arr = [] := by
  rw [argMax]
  by_cases he : arr.isEmpty
  · simp [he, List.isEmpty_iff.1 he]
  · constructor
    · intro h
      rw [if_neg he] at h
      cases h
    · intro h
      subst h
      simp at he

/-! # globalMax lemmas -/

theorem le_foldl_max (l : List ℚ) (init : ℚ) :
    init ≤ l.foldl max init ∧ ∀ x ∈ l, x ≤ l.foldl max init := by
  induction l generalizing init with
  | nil => exact ⟨le_refl _, by intro x hx; cases hx⟩
  | cons v xs ih =>
    refine ⟨?_, ?_⟩
    · exact le_trans (le_max_left init v) (ih (max init v)).1
    · intro x hx
      rcases List.mem_cons.1 hx with rfl | hx
      · exact le_trans (le_max_right init x) (ih (max init x)).1
      · exact (ih (max init v)).2 x hx

theorem foldl_max_le (l : List ℚ) : ∀ (init b : ℚ), init ≤ b →
    (∀ x ∈ l, x ≤ b) → l.foldl max init ≤ b := by
  induction l with
  | nil =>
    intro init b h0 _
    exact h0
  | cons v xs ih =>
    intro init b h0 h
    exact ih (max init v) b (max_le h0 (h v (List.mem_cons_self v xs)))
      (fun x hx => h x (List.mem_cons_of_mem v hx))

theorem foldl_max_mem (l : List ℚ) (init : ℚ) :
    l.foldl max init = init ∨ l.foldl max init ∈ l := by
  induction l generalizing init with
  | nil => exact Or.inl rfl
  | cons v xs ih =>
    rcases ih (max init v) with h | h
    · rcases max_choice init v with hm | hm
      · exact Or.inl (by rw [List.foldl_cons, h, hm])
      · exact Or.inr (by rw [List.foldl_cons, h, hm]; exact List.mem_cons_self v xs)
    · exact Or.inr (List.mem_cons_of_mem v h)

theorem globalMax_foldAux (A : Matrix) (init : ℚ) :
    init ≤ A.foldl (fun prev row => row.foldl max prev) init ∧
    (∀ row ∈ A, ∀ x ∈ row, x ≤ A.foldl (fun prev row => row.foldl max prev) init) ∧
    (∀ b, init ≤ b → (∀ row ∈ A, ∀ x ∈ row, x ≤ b) →
      A.foldl (fun prev row => row.foldl max prev) init ≤ b) ∧
    (A.foldl (fun prev row => row.foldl max prev) init = init ∨
      ∃ row ∈ A, A.foldl (fun prev row => row.foldl max prev) init ∈ row) := by
  induction A generalizing init with
  | nil =>
    refine ⟨le_refl _, ?_, ?_, ?_⟩
    · intro row h
      cases h
    · intro b hb _
      exact hb
    · exact Or.inl rfl
  | cons r rows ih =>
    obtain ⟨ih1, ih2, ih3, ih4⟩ := ih (r.foldl max init)
    refine ⟨le_trans (le_foldl_max r init).1 ih1, ?_, ?_, ?_⟩
    · intro row hrow x hx
      rcases List.mem_cons.1 hrow with rfl | hrow
      · exact le_trans ((le_foldl_max row init).2 x hx) ih1
      · exact ih2 row hrow x hx
    · intro b hb h
      exact ih3 b (foldl_max_le r init b hb (h r (List.mem_cons_self r rows)))
        (fun row hrow x hx => h row (List.mem_cons_of_mem r hrow) x hx)
    · rcases ih4 with h | ⟨row, hrow, hmem⟩
      · rcases foldl_max_mem r init with h2 | h2
        · exact Or.inl (by rw [List.foldl_cons, h, h2])
        · exact Or.inr ⟨r, List.mem_cons_self r rows, by rw [List.foldl_cons, h]; exact h2⟩
      · exact Or.inr ⟨row, List.mem_cons_of_mem r hrow, hmem⟩

theorem globalMax_nonneg (A : Matrix) : 0 ≤ globalMax A :=
  (globalMax_foldAux A 0).1

theorem le_globalMax {A : Matrix} {row : List ℚ} {x : ℚ}
    (hrow : row ∈ A) (hx : x ∈ row) : x ≤ globalMax A :=
  (globalMax_foldAux A 0).2.1 row hrow x hx

theorem globalMax_le {A : Matrix} {b : ℚ} (hb : 0 ≤ b)
    (h : ∀ row ∈ A, ∀ x ∈ row, x ≤ b) : globalMax A ≤ b :=
  (globalMax_foldAux A 0).2.2.1 b hb h

theorem globalMax_zero_or_mem (A : Matrix) :
    globalMax A = 0 ∨ ∃ row ∈ A, globalMax A ∈ row :=
  (globalMax_foldAux A 0).2.2.2

/-- C10: globalMax(A) equals the maximum of 0 and the largest entry of A —
every entry is at most `globalMax A`, `globalMax A` is nonnegative and is
either an entry or 0 — and in particular on a matrix whose entries are all
negative `globalMax` returns 0 rather than the true maximum entry. -/
theorem globalMax_clamps_at_zero (A : Matrix) :
    (∀ x ∈ A.flatten, x ≤ globalMax A) ∧ 0 ≤ globalMax A ∧
    (globalMax A ≠ 0 → globalMax A ∈ A.flatten) ∧
    ((∀ x ∈ A.flatten, x < 0) → globalMax A = 0) := by
  refine ⟨?_, globalMax_nonneg A, ?_, ?_⟩
  · intro x hx
    rcases List.mem_flatten.1 hx with ⟨row, hrow, hx⟩
    exact le_globalMax hrow hx
  · intro hne
    rcases globalMax_zero_or_mem A with h | ⟨row, hrow, hmem⟩
    · exact absurd h hne
    · exact List.mem_flatten.2 ⟨row, hrow, hmem⟩
  · intro hneg
    rcases globalMax_zero_or_mem A with h | ⟨row, hrow, hmem⟩
    · exact h
    · exact absurd (hneg _ (List.mem_flatten.2 ⟨row, hrow, hmem⟩))
        (not_lt.2 (globalMax_nonneg A))

/-! # mget and argMaxCell lemmas -/

theorem mget_ne_zero {A : Matrix} {i j : ℕ} (h : mget A i j ≠ 0) :
    i < A.length ∧ j < (A.getD i []).length := by
  constructor
  · by_contra hi
    apply h
    have hrow : A.getD i [] = [] := by
      rw [List.getD_eq_getElem?_getD, List.getElem?_eq_none (by omega)]
      rfl
    rw [mget, hrow]
    rfl
  · by_contra hj
    apply h
    rw [mget, List.getD_eq_getElem?_getD (A.getD i []),
      List.getElem?_eq_none (show (A.getD i []).length ≤ j by omega)]
    rfl

theorem mgetZ_of_nonneg {A : Matrix} {i j : ℤ} (hi : 0 ≤ i) (hj : 0 ≤ j) :
    mgetZ A i j = mget A i.toNat j.toNat := by
  rw [mgetZ, if_pos ⟨hi, hj⟩]

theorem mget_row {A : Matrix} {i : ℕ} {row : List ℚ} (h : A[i]? = some row)
    (j : ℕ) : mget A i j = row.getD j 0 := by
  have hrow : A.getD i [] = row := by
    rw [List.getD_eq_getElem?_getD, h]
    rfl
  rw [mget, hrow]

theorem argMaxCellGo_spec (full : Matrix) :
    ∀ (rows : List (List ℚ)) (rn : ℕ) (acc : ℤ × ℤ),
      full.drop rn = rows → 0 ≤ acc.1 → 0 ≤ acc.2 →
      0 ≤ (argMaxCellGo full rn rows acc).1 ∧
      0 ≤ (argMaxCellGo full rn rows acc).2 ∧
      mgetZ full acc.1 acc.2
        ≤ mgetZ full (argMaxCellGo full rn rows acc).1 (argMaxCellGo full rn rows acc).2 ∧
      (∀ row ∈ rows, ∀ x ∈ row, x ≤ mgetZ full (argMaxCellGo full rn rows acc).1
        (argMaxCellGo full rn rows acc).2) ∧
      (argMaxCellGo full rn rows acc = acc ∨
        ((argMaxCellGo full rn rows acc).1.toNat < full.length ∧
         (argMaxCellGo full rn rows acc).2.toNat
           < (full.getD (argMaxCellGo full rn rows acc).1.toNat []).length)) := by
  intro rows
  induction rows with
  | nil =>
    intro rn acc _ h1 h2
    rw [argMaxCellGo]
    refine ⟨h1, h2, le_refl _, ?_, Or.inl rfl⟩
    intro row h
    cases h
  | cons row rest ih =>
    intro rn acc hdrop h1 h2
    have hget : full[rn]? = some row := by
      have h0 := List.getElem?_drop full rn 0
      rw [hdrop] at h0
      simpa using h0.symm
    have hrn : rn < full.length := by
      rcases List.getElem?_eq_some.1 hget with ⟨hlt, _⟩
      exact hlt
    have hdrop' : full.drop (rn + 1) = rest := by
      rw [← List.tail_drop, hdrop]
      rfl
    rw [argMaxCellGo]
    rcases hm : argMax row with _ | c <;> simp only [hm]
    · have hrow : row = [] := argMax_eq_none_iff.1 hm
      obtain ⟨g1, g2, g3, g4, g5⟩ := ih (rn + 1) acc hdrop' h1 h2
      exact ⟨g1, g2, g3, by
        intro r hr x hx
        rcases List.mem_cons.1 hr with rfl | hr
        · rw [hrow] at hx
          cases hx
        · exact g4 r hr x hx, g5⟩
    · have hc : c < row.length := argMax_lt_length hm
      have hval : mgetZ full (rn : ℤ) (c : ℤ) = row.getD c 0 := by
        rw [mgetZ_of_nonneg (by omega) (by omega)]
        simp only [Int.toNat_natCast]
        exact mget_row hget c
      by_cases hlt : mgetZ full acc.1 acc.2 < row.getD c 0
      · rw [if_pos hlt]
        obtain ⟨g1, g2, g3, g4, g5⟩ := ih (rn + 1) ((rn : ℤ), (c : ℤ))
          hdrop' (by omega) (by omega)
        have hvle : row.getD c 0
            ≤ mgetZ full (argMaxCellGo full (rn + 1) rest ((rn : ℤ), (c : ℤ))).1
              (argMaxCellGo full (rn + 1) rest ((rn : ℤ), (c : ℤ))).2 := by
          calc row.getD c 0 = mgetZ full (rn : ℤ) (c : ℤ) := hval.symm
          _ ≤ _ := g3
        refine ⟨g1, g2, le_trans (le_of_lt hlt) hvle, ?_, ?_⟩
        · intro r hr x hx
          rcases List.mem_cons.1 hr with rfl | hr
          · have hx2 : x ≤ r.getD c default := argMax_attains hm x hx
            exact le_trans hx2 hvle
          · exact g4 r hr x hx
        · rcases g5 with g5 | g5
          · right
            rw [g5]
            constructor
            · simpa using hrn
            · simp only [Int.toNat_natCast]
              rw [List.getD_eq_getElem?_getD, hget]
              simpa using hc
          · right
            exact g5
      · rw [if_neg hlt]
        obtain ⟨g1, g2, g3, g4, g5⟩ := ih (rn + 1) acc hdrop' h1 h2
        refine ⟨g1, g2, g3, ?_, g5⟩
        intro r hr x hx
        rcases List.mem_cons.1 hr with rfl | hr
        · have hx2 : x ≤ r.getD c default := argMax_attains hm x hx
          exact le_trans (le_trans hx2 (le_of_not_lt hlt)) g3
        · exact g4 r hr x hx

theorem argMaxCell_spec (A : Matrix) :
    0 ≤ (argMaxCell A).1 ∧ 0 ≤ (argMaxCell A).2 ∧
    (∀ row ∈ A, ∀ x ∈ row, x ≤ mgetZ A (argMaxCell A).1 (argMaxCell A).2) ∧
    (argMaxCell A = (0, 0) ∨
      ((argMaxCell A).1.toNat < A.length ∧
       (argMaxCell A).2.toNat < (A.getD (argMaxCell A).1.toNat []).length)) := by
  obtain ⟨g1, g2, _, g4, g5⟩ := argMaxCellGo_spec A A 0 (0, 0) rfl (by omega) (by omega)
  exact ⟨g1, g2, g4, g5⟩

/-! # Shape preservation lemmas -/

theorem msetZ_length (A : Matrix) (i j : ℤ) (v : ℚ) :
    (msetZ A i j v).length = A.length := by
  rw [msetZ]
  split
  · exact mset_length A _ _ v
  · rfl

theorem hasWidth_msetZ {A : Matrix} {w : ℕ} (hA : HasWidth A w) (i j : ℤ) (v : ℚ) :
    HasWidth (msetZ A i j v) w := by
  rw [msetZ]
  split
  · exact hasWidth_mset hA _ _ v
  · exact hA

theorem zeroNeighbors_length (e : Matrix) (j freq : ℤ) :
    (zeroNeighbors e j freq).length = e.length := by
  rw [zeroNeighbors]
  split <;> split <;> simp [msetZ_length]

theorem hasWidth_zeroNeighbors {e : Matrix} {w : ℕ} (he : HasWidth e w) (j freq : ℤ) :
    HasWidth (zeroNeighbors e j freq) w := by
  rw [zeroNeighbors]
  split <;> split <;>
    first
      | exact hasWidth_msetZ (hasWidth_msetZ (hasWidth_msetZ he _ _ _) _ _ _) _ _ _
      | exact hasWidth_msetZ (hasWidth_msetZ he _ _ _) _ _ _
      | exact hasWidth_msetZ he _ _ _

theorem zScan_shape (thresh : ℚ) (freq : ℤ) (tol : ℕ) (step : ℤ) :
    ∀ (n : ℕ) (e : Matrix) (i : ℤ) (k : ℕ),
      (zScan thresh freq tol step n e i k).1.length = e.length ∧
      ∀ w, HasWidth e w → HasWidth (zScan thresh freq tol step n e i k).1 w := by
  intro n
  induction n with
  | zero =>
    intro e i k
    exact ⟨rfl, fun _ h => h⟩
  | succ n ih =>
    intro e i k
    rw [zScan]
    by_cases hk : k < tol
    · rw [if_pos hk]
      obtain ⟨h1, h2⟩ := ih (zeroNeighbors e i freq) (i + step)
        (if mgetZ e i freq < thresh then k + 1 else 0)
      refine ⟨h1.trans (zeroNeighbors_length e i freq), ?_⟩
      intro w hw
      exact h2 w (hasWidth_zeroNeighbors hw i freq)
    · rw [if_neg hk]
      exact ⟨rfl, fun _ h => h⟩

theorem zScan_i_shift (thresh : ℚ) (freq : ℤ) (tol : ℕ) (step : ℤ) :
    ∀ (n : ℕ) (e : Matrix) (i : ℤ) (k : ℕ),
      ∃ t : ℕ, t ≤ n ∧ (zScan thresh freq tol step n e i k).2.1 = i + step * t := by
  intro n
  induction n with
  | zero =>
    intro e i k
    refine ⟨0, le_refl 0, ?_⟩
    rw [zScan]
    ring
  | succ n ih =>
    intro e i k
    rw [zScan]
    by_cases hk : k < tol
    · rw [if_pos hk]
      obtain ⟨t, ht, heq⟩ := ih (zeroNeighbors e i freq) (i + step)
        (if mgetZ e i freq < thresh then k + 1 else 0)
      refine ⟨t + 1, by omega, ?_⟩
      rw [heq]
      push_cast
      ring
    · rw [if_neg hk]
      refine ⟨0, by omega, by ring⟩

theorem kScan_bounds (e : Matrix) (thresh : ℚ) (freq : ℤ) (tol : ℕ) :
    ∀ (n : ℕ) (i : ℤ) (k : ℕ),
      i ≤ (kScan e thresh freq tol n i k).1 ∧
      (kScan e thresh freq tol n i k).1 ≤ i + n := by
  intro n
  induction n with
  | zero =>
    intro i k
    rw [kScan]
    exact ⟨le_refl _, by omega⟩
  | succ n ih =>
    intro i k
    rw [kScan]
    by_cases hk : k < tol
    · rw [if_pos hk]
      obtain ⟨h1, h2⟩ := ih (i + 1) (if mgetZ e i freq < thresh then k + 1 else 0)
      exact ⟨by omega, by omega⟩
    · rw [if_neg hk]
      exact ⟨le_refl _, by omega⟩

/-! # whereGreaterPairs membership -/

theorem mem_whereGreaterPairs {thresh : ℚ} :
    ∀ (A : Matrix) (i0 : ℕ) (p : ℕ × ℕ), p ∈ whereGreaterPairs thresh i0 A →
      ∃ r, r < A.length ∧ p.1 = i0 + r ∧ p.2 < (A.getD r []).length := by
  intro A
  induction A with
  | nil =>
    intro i0 p h
    cases h
  | cons row rest ih =>
    intro i0 p hp
    rw [whereGreaterPairs] at hp
    rcases List.mem_append.1 hp with h | h
    · rcases List.mem_filterMap.1 h with ⟨jv, hjv, hsome⟩
      rcases mem_idxMap.1 hjv with ⟨j, hj, rfl⟩
      by_cases hgt : thresh < row[j]
      · rw [if_pos hgt] at hsome
        injection hsome with hsome
        subst hsome
        exact ⟨0, by simp, by omega, by simpa using hj⟩
      · rw [if_neg hgt] at hsome
        cases hsome
    · rcases ih (i0 + 1) p h with ⟨r, hr, hpi, hpj⟩
      refine ⟨r + 1, by simpa using Nat.succ_lt_succ hr, by omega, ?_⟩
      simpa using hpj

/-! # Shape of the decoding pipeline -/

theorem getD_of_lt {A : Matrix} {i : ℕ} (h : i < A.length) :
    A.getD i [] = A[i] := by
  rw [List.getD_eq_getElem?_getD, List.getElem?_eq_getElem h]
  rfl

theorem hasWidth_getD {A : Matrix} {w : ℕ} (hA : HasWidth A w) {i : ℕ}
    (h : i < A.length) : (A.getD i []).length = w := by
  rw [getD_of_lt h]
  exact hasWidth_iff.1 hA i h

theorem map_row_shape (A : Matrix) (g : List ℚ → List ℚ)
    (hg : ∀ r, (g r).length = r.length) :
    (A.map g).length = A.length ∧ ∀ w, HasWidth A w → HasWidth (A.map g) w := by
  refine ⟨List.length_map A g, fun w hw r hr => ?_⟩
  rcases List.mem_map.1 hr with ⟨r0, hr0, rfl⟩
  rw [hg]
  exact hw _ hr0

theorem constrainFrequencyIdx_none_none (o f : Matrix) :
    constrainFrequencyIdx o f none none = (o, f) :=
  rfl

theorem constrainFrequencyIdx_shape (o f : Matrix) (maxIdx minIdx : Option ℤ) :
    (constrainFrequencyIdx o f maxIdx minIdx).1.length = o.length ∧
    (constrainFrequencyIdx o f maxIdx minIdx).2.length = f.length ∧
    ∀ w, (HasWidth o w → HasWidth (constrainFrequencyIdx o f maxIdx minIdx).1 w) ∧
         (HasWidth f w → HasWidth (constrainFrequencyIdx o f maxIdx minIdx).2 w) := by
  rcases maxIdx with _ | mi <;> rcases minIdx with _ | ni
  · exact ⟨rfl, rfl, fun w => ⟨id, id⟩⟩
  · have h1 := map_row_shape o (fun r => jsFill r 0 0 ni) (fun r => jsFill_length r 0 0 ni)
    have h2 := map_row_shape f (fun r => jsFill r 0 0 ni) (fun r => jsFill_length r 0 0 ni)
    exact ⟨h1.1, h2.1, fun w => ⟨h1.2 w, h2.2 w⟩⟩
  · have h1 := map_row_shape o (fun r => jsFill r 0 mi (r.length : ℤ))
      (fun r => jsFill_length r 0 mi (r.length : ℤ))
    have h2 := map_row_shape f (fun r => jsFill r 0 mi (r.length : ℤ))
      (fun r => jsFill_length r 0 mi (r.length : ℤ))
    exact ⟨h1.1, h2.1, fun w => ⟨h1.2 w, h2.2 w⟩⟩
  · have h1a := map_row_shape o (fun r => jsFill r 0 mi (r.length : ℤ))
      (fun r => jsFill_length r 0 mi (r.length : ℤ))
    have h1b := map_row_shape (o.map (fun r => jsFill r 0 mi (r.length : ℤ)))
      (fun r => jsFill r 0 0 ni) (fun r => jsFill_length r 0 0 ni)
    have h2a := map_row_shape f (fun r => jsFill r 0 mi (r.length : ℤ))
      (fun r => jsFill_length r 0 mi (r.length : ℤ))
    have h2b := map_row_shape (f.map (fun r => jsFill r 0 mi (r.length : ℤ)))
      (fun r => jsFill r 0 0 ni) (fun r => jsFill_length r 0 0 ni)
    exact ⟨h1b.1.trans h1a.1, h2b.1.trans h2a.1,
      fun w => ⟨fun hw => h1b.2 w (h1a.2 w hw), fun hw => h2b.2 w (h2a.2 w hw)⟩⟩

theorem reduceAxis0_cons_shape (g : ℚ → ℚ → ℚ) (a0 : Matrix) (rest : List Matrix) :
    (reduceAxis0 g (a0 :: rest)).length = a0.length ∧
    ∀ w, HasWidth a0 w → HasWidth (reduceAxis0 g (a0 :: rest)) w := by
  refine ⟨idxMap_length _ _, fun w hw r hr => ?_⟩
  rw [reduceAxis0] at hr
  rcases mem_idxMap.1 hr with ⟨y, hy, rfl⟩
  rw [idxMap_length]
  exact hasWidth_iff.1 hw y hy

theorem getInferredOnsets_shape (onsets frames : Matrix) (n : ℕ) :
    (getInferredOnsets onsets frames n).length = onsets.length ∧
    ∀ w, HasWidth onsets w → HasWidth (getInferredOnsets onsets frames n) w := by
  unfold getInferredOnsets max3dForAxis0
  exact reduceAxis0_cons_shape max onsets _

theorem peakThresholdMatrix_shape (A : Matrix) :
    (peakThresholdMatrix A).length = A.length ∧
    ∀ w, HasWidth A w → HasWidth (peakThresholdMatrix A) w := by
  refine ⟨idxMap_length _ _, fun w hw r hr => ?_⟩
  rw [peakThresholdMatrix] at hr
  rcases mem_idxMap.1 hr with ⟨y, hy, rfl⟩
  rw [idxMap_length]
  exact hasWidth_iff.1 hw y hy

theorem foldl_zeroNeighbors_shape (freq : ℤ) :
    ∀ (l : List ℤ) (e : Matrix),
      ((l.foldl (fun B j => zeroNeighbors B j freq) e).length = e.length) ∧
      ∀ w, HasWidth e w → HasWidth (l.foldl (fun B j => zeroNeighbors B j freq) e) w := by
  intro l
  induction l with
  | nil => exact fun e => ⟨rfl, fun _ h => h⟩
  | cons j rest ih =>
    intro e
    obtain ⟨h1, h2⟩ := ih (zeroNeighbors e j freq)
    exact ⟨h1.trans (zeroNeighbors_length e j freq),
      fun w hw => h2 w (hasWidth_zeroNeighbors hw j freq)⟩

/-! # Invariants of the per-onset extension phase -/

theorem onsetStep_inv (frames : Matrix) (thresh : ℚ) (minNoteLen : ℤ) (tol : ℕ)
    (T : ℤ) (acc : Matrix × List NoteEvent) (p : ℕ × ℕ)
    (hwid : HasWidth acc.1 88)
    (hnotes : ∀ e ∈ acc.2, NoteOk T minNoteLen e)
    (hp2 : p.2 < 88) :
    (onsetStep frames thresh minNoteLen tol T acc p).1.length = acc.1.length ∧
    HasWidth (onsetStep frames thresh minNoteLen tol T acc p).1 88 ∧
    ∀ e ∈ (onsetStep frames thresh minNoteLen tol T acc p).2,
      NoteOk T minNoteLen e := by
  simp only [onsetStep]
  split
  · exact ⟨rfl, hwid, hnotes⟩
  · rename_i hguard
    set scan := kScan acc.1 thresh (p.2 : ℤ) tol (T - 1 - ((p.1 : ℤ) + 1)).toNat
      ((p.1 : ℤ) + 1) 0 with hscan
    obtain ⟨hk1, hk2⟩ := kScan_bounds acc.1 thresh (p.2 : ℤ) tol
      ((T - 1 - ((p.1 : ℤ) + 1)).toNat) ((p.1 : ℤ) + 1) 0
    rw [← hscan] at hk1 hk2
    split
    · exact ⟨rfl, hwid, hnotes⟩
    · rename_i hshort
      obtain ⟨hz1, hz2⟩ := foldl_zeroNeighbors_shape (p.2 : ℤ)
        (intRange (p.1 : ℤ) (scan.1 - (scan.2 : ℤ))) acc.1
      refine ⟨hz1, hz2 88 hwid, ?_⟩
      intro e he
      rcases List.mem_append.1 he with he | he
      · exact hnotes e he
      · rw [List.mem_singleton] at he
        subst he
        simp only [NoteOk, MIDI_OFFSET]
        refine ⟨by omega, by omega, by omega, by omega, by omega⟩

theorem onsetFold_inv (frames : Matrix) (thresh : ℚ) (minNoteLen : ℤ) (tol : ℕ)
    (T : ℤ) :
    ∀ (pairs : List (ℕ × ℕ)) (acc : Matrix × List NoteEvent),
      HasWidth acc.1 88 → (∀ e ∈ acc.2, NoteOk T minNoteLen e) →
      (∀ p ∈ pairs, p.2 < 88) →
      HasWidth (pairs.foldl (onsetStep frames thresh minNoteLen tol T) acc).1 88 ∧
      (pairs.foldl (onsetStep frames thresh minNoteLen tol T) acc).1.length
        = acc.1.length ∧
      ∀ e ∈ (pairs.foldl (onsetStep frames thresh minNoteLen tol T) acc).2,
        NoteOk T minNoteLen e := by
  intro pairs
  induction pairs with
  | nil =>
    intro acc hw hn _
    exact ⟨hw, rfl, hn⟩
  | cons p rest ih =>
    intro acc hw hn hp
    rw [List.foldl_cons]
    obtain ⟨s1, s2, s3⟩ := onsetStep_inv frames thresh minNoteLen tol T acc p hw hn
      (hp p (List.mem_cons_self p rest))
    obtain ⟨g1, g2, g3⟩ := ih (onsetStep frames thresh minNoteLen tol T acc p) s2 s3
      (fun q hq => hp q (List.mem_cons_of_mem p hq))
    exact ⟨g1, g2.trans s1, g3⟩

/-! # Invariants of the melodia-trick pass -/

theorem melodiaStep_main (frames : Matrix) (thresh : ℚ) (minNoteLen : ℤ) (tol : ℕ)
    (T : ℤ) (energy : Matrix) (notes : List NoteEvent)
    (hwid : HasWidth energy 88) :
    (∀ st, melodiaStep frames thresh minNoteLen tol T energy notes = Except.ok st →
      st.1.length = energy.length ∧ HasWidth st.1 88 ∧
      ∀ e ∈ st.2, e ∈ notes ∨ NoteOk T minNoteLen e) ∧
    (1 ≤ T → (energy.length : ℤ) = T →
      ∃ st, melodiaStep frames thresh minNoteLen tol T energy notes = Except.ok st) := by
  obtain ⟨hc1, hc2, _, hcb⟩ := argMaxCell_spec energy
  simp only [melodiaStep]
  set c := argMaxCell energy with hc
  set e0 := msetZ energy c.1 c.2 0 with he0
  set fwd := zScan thresh c.2 tol 1 (T - 1 - (c.1 + 1)).toNat e0 (c.1 + 1) 0 with hfwd
  set bwd := zScan thresh c.2 tol (-1) (c.1 - 1).toNat fwd.1 (c.1 - 1) 0 with hbwd
  obtain ⟨t1, ht1, hfi⟩ := zScan_i_shift thresh c.2 tol 1
    ((T - 1 - (c.1 + 1)).toNat) e0 (c.1 + 1) 0
  obtain ⟨t2, ht2, hbi⟩ := zScan_i_shift thresh c.2 tol (-1)
    ((c.1 - 1).toNat) fwd.1 (c.1 - 1) 0
  rw [← hfwd] at hfi
  rw [← hbwd] at hbi
  have hIStart : 0 ≤ bwd.2.1 + 1 + (bwd.2.2 : ℤ) := by omega
  obtain ⟨hs1, hs2⟩ := zScan_shape thresh c.2 tol 1
    ((T - 1 - (c.1 + 1)).toNat) e0 (c.1 + 1) 0
  obtain ⟨hs3, hs4⟩ := zScan_shape thresh c.2 tol (-1)
    ((c.1 - 1).toNat) fwd.1 (c.1 - 1) 0
  rw [← hfwd] at hs1 hs2
  rw [← hbwd] at hs3 hs4
  have he0len : e0.length = energy.length := msetZ_length energy c.1 c.2 0
  have he0wid : HasWidth e0 88 := hasWidth_msetZ hwid c.1 c.2 0
  have hbLen : bwd.1.length = energy.length := by rw [hs3, hs1, he0len]
  have hbWid : HasWidth bwd.1 88 := hs4 88 (hs2 88 he0wid)
  have hfreq : c.2 ≤ 87 := by
    rcases hcb with h | ⟨hb1, hb2⟩
    · rw [h]
      norm_num
    · have hwd := hasWidth_getD hwid hb1
      omega
  refine ⟨?_, ?_⟩
  · intro st hst
    rw [if_neg (not_lt.2 hIStart)] at hst
    by_cases hTe : T ≤ fwd.2.1 - 1 - (fwd.2.2 : ℤ)
    · rw [if_pos hTe] at hst
      cases hst
    · rw [if_neg hTe] at hst
      by_cases hms : fwd.2.1 - 1 - (fwd.2.2 : ℤ) - (bwd.2.1 + 1 + (bwd.2.2 : ℤ))
          ≤ minNoteLen
      · rw [if_pos hms] at hst
        injection hst with hst
        subst hst
        exact ⟨hbLen, hbWid, fun e he => Or.inl he⟩
      · rw [if_neg hms] at hst
        injection hst with hst
        subst hst
        refine ⟨hbLen, hbWid, ?_⟩
        intro e he
        rcases List.mem_append.1 he with he | he
        · exact Or.inl he
        · right
          rw [List.mem_singleton] at he
          subst he
          simp only [NoteOk, MIDI_OFFSET]
          refine ⟨by omega, by omega, by omega, by omega, by omega⟩
  · intro hT hlen
    have hiMid : c.1 ≤ T - 1 := by
      rcases hcb with h | ⟨hb1, _⟩
      · rw [h]
        omega
      · omega
    have hiEnd : ¬ (T ≤ fwd.2.1 - 1 - (fwd.2.2 : ℤ)) := by omega
    rw [if_neg (not_lt.2 hIStart), if_neg hiEnd]
    by_cases hms : fwd.2.1 - 1 - (fwd.2.2 : ℤ) - (bwd.2.1 + 1 + (bwd.2.2 : ℤ))
        ≤ minNoteLen
    · rw [if_pos hms]
      exact ⟨_, rfl⟩
    · rw [if_neg hms]
      exact ⟨_, rfl⟩

theorem melodiaLoop_inv (frames : Matrix) (thresh : ℚ) (minNoteLen : ℤ) (tol : ℕ)
    (T : ℤ) :
    ∀ (fuel : ℕ) (energy : Matrix) (notes : List NoteEvent),
      HasWidth energy 88 →
      (∀ e ∈ notes, NoteOk T minNoteLen e) →
      ∀ st, melodiaLoop frames thresh minNoteLen tol T fuel energy notes
        = Except.ok (some st) → ∀ e ∈ st.2, NoteOk T minNoteLen e := by
  intro fuel
  induction fuel with
  | zero =>
    intro energy notes hw hn st hst
    rw [melodiaLoop] at hst
    split at hst
    · cases hst
    · injection hst with hst
      injection hst with hst
      subst hst
      exact hn
  | succ fuel ih =>
    intro energy notes hw hn st hst
    rw [melodiaLoop] at hst
    split at hst
    · rcases hms : melodiaStep frames thresh minNoteLen tol T energy notes with msg | st0
      · simp only [hms] at hst
        cases hst
      · simp only [hms] at hst
        obtain ⟨_, g2, g3⟩ :=
          (melodiaStep_main frames thresh minNoteLen tol T energy notes hw).1 st0 hms
        exact ih st0.1 st0.2 g2 (fun e he => (g3 e he).elim (hn e) id) st hst
    · injection hst with hst
      injection hst with hst
      subst hst
      exact hn

theorem melodiaLoop_no_error (frames : Matrix) (thresh : ℚ) (minNoteLen : ℤ)
    (tol : ℕ) (T : ℤ) (hT : 1 ≤ T) :
    ∀ (fuel : ℕ) (energy : Matrix) (notes : List NoteEvent),
      HasWidth energy 88 → (energy.length : ℤ) = T →
      exceptIsOk (melodiaLoop frames thresh minNoteLen tol T fuel energy notes)
        = true := by
  intro fuel
  induction fuel with
  | zero =>
    intro energy notes hw hlen
    rw [melodiaLoop]
    split <;> rfl
  | succ fuel ih =>
    intro energy notes hw hlen
    rw [melodiaLoop]
    split
    · obtain ⟨st, hst⟩ :=
        (melodiaStep_main frames thresh minNoteLen tol T energy notes hw).2 hT hlen
      obtain ⟨g1, g2, _⟩ :=
        (melodiaStep_main frames thresh minNoteLen tol T energy notes hw).1 st hst
      simp only [hst]
      exact ih st.1 st.2 g2 (by rw [g1]; exact hlen)
    · rfl

theorem zip_map_fst_snd {α β : Type} :
    ∀ (l : List (α × β)), (l.map Prod.fst).zip (l.map Prod.snd) = l := by
  intro l
  induction l with
  | nil => rfl
  | cons p rest ih => simp [ih]

/-! # Main invariants of outputToNotesPolyIdx -/

theorem outputToNotesPolyIdx_inv (fuel : ℕ) (frames onsets : Matrix) (T : ℕ)
    (onsetThresh frameThresh : ℚ) (minNoteLen : ℤ) (inferOnsets : Bool)
    (maxIdx minIdx : Option ℤ) (melodiaTrick : Bool) (energyTolerance : ℕ)
    (hfl : frames.length = T) (hol : onsets.length = T)
    (hfw : HasWidth frames 88) (how : HasWidth onsets 88) :
    (∀ ns, (outputToNotesPolyIdx fuel frames onsets onsetThresh frameThresh
        minNoteLen inferOnsets maxIdx minIdx melodiaTrick energyTolerance).1
          = Except.ok (some ns) →
      ∀ e ∈ ns, NoteOk (T : ℤ) minNoteLen e) ∧
    (1 ≤ T →
      exceptIsOk (outputToNotesPolyIdx fuel frames onsets onsetThresh frameThresh
        minNoteLen inferOnsets maxIdx minIdx melodiaTrick energyTolerance).1
          = true) := by
  obtain ⟨hc1, hc2, hc3⟩ := constrainFrequencyIdx_shape onsets frames maxIdx minIdx
  simp only [outputToNotesPolyIdx]
  set cf := constrainFrequencyIdx onsets frames maxIdx minIdx with hcf
  have hone : HasWidth cf.1 88 := (hc3 88).1 how
  have htwo : HasWidth cf.2 88 := (hc3 88).2 hfw
  set io := if inferOnsets = true then getInferredOnsets cf.1 cf.2 else cf.1 with hio
  have hioShape : io.length = T ∧ HasWidth io 88 := by
    rw [hio]
    split
    · obtain ⟨g1, g2⟩ := getInferredOnsets_shape cf.1 cf.2 2
      exact ⟨g1.trans (hc1.trans hol), g2 88 hone⟩
    · exact ⟨hc1.trans hol, hone⟩
  set ptm := peakThresholdMatrix io with hptm
  have hptmShape : ptm.length = T ∧ HasWidth ptm 88 := by
    obtain ⟨g1, g2⟩ := peakThresholdMatrix_shape io
    exact ⟨g1.trans hioShape.1, g2 88 hioShape.2⟩
  have hpairs : ∀ p ∈ ((whereGreaterThanAxis1 ptm onsetThresh).1.reverse.zip
      (whereGreaterThanAxis1 ptm onsetThresh).2.reverse), p.2 < 88 := by
    intro p hp
    have hz : (whereGreaterThanAxis1 ptm onsetThresh).1.reverse.zip
        (whereGreaterThanAxis1 ptm onsetThresh).2.reverse
        = (whereGreaterPairs onsetThresh 0 ptm).reverse := by
      rw [whereGreaterThanAxis1]
      rw [← List.map_reverse, ← List.map_reverse]
      exact zip_map_fst_snd _
    rw [hz, List.mem_reverse] at hp
    rcases mem_whereGreaterPairs ptm 0 p hp with ⟨r, hr, _, hpj⟩
    have := hasWidth_getD hptmShape.2 hr
    omega
  set folded := (((whereGreaterThanAxis1 ptm onsetThresh).1.reverse.zip
      (whereGreaterThanAxis1 ptm onsetThresh).2.reverse).foldl
    (onsetStep cf.2 frameThresh minNoteLen energyTolerance (frames.length : ℤ))
    (cf.2, [])) with hfolded
  obtain ⟨hfw1, hfl1, hfn1⟩ := onsetFold_inv cf.2 frameThresh minNoteLen
    energyTolerance (frames.length : ℤ)
    ((whereGreaterThanAxis1 ptm onsetThresh).1.reverse.zip
      (whereGreaterThanAxis1 ptm onsetThresh).2.reverse)
    (cf.2, []) htwo (by intro e he; cases he) hpairs
  rw [← hfolded] at hfw1 hfl1 hfn1
  have hTcast : ((frames.length : ℤ)) = (T : ℤ) := by
    rw [hfl]
  have hfoldLen : ((folded.1.length : ℤ)) = (T : ℤ) := by
    rw [hfl1]
    simp only [hc2]
    rw [hfl]
  rw [hTcast] at hfn1
  constructor
  · intro ns hres
    split at hres
    · rcases hml : melodiaLoop cf.2 frameThresh minNoteLen energyTolerance
          (frames.length : ℤ) fuel folded.1 folded.2 with msg | ost
      · simp only [hml, Except.map] at hres
        cases hres
      · rcases ost with _ | st
        · simp only [hml, Except.map, Option.map] at hres
          injection hres with hres
          cases hres
        · simp only [hml, Except.map, Option.map] at hres
          injection hres with hres
          injection hres with hres
          subst hres
          have := melodiaLoop_inv cf.2 frameThresh minNoteLen energyTolerance
            (frames.length : ℤ) fuel folded.1 folded.2 hfw1
            (by rw [hTcast]; exact hfn1) st hml
          rw [hTcast] at this
          exact this
    · injection hres with hres
      injection hres with hres
      subst hres
      exact hfn1
  · intro hT
    split
    · rcases hml : melodiaLoop cf.2 frameThresh minNoteLen energyTolerance
          (frames.length : ℤ) fuel folded.1 folded.2 with msg | ost
      · have := melodiaLoop_no_error cf.2 frameThresh minNoteLen energyTolerance
          (frames.length : ℤ) (by omega) fuel folded.1 folded.2 hfw1
          (by rw [hfoldLen, hTcast])
        rw [hml] at this
        cases this
      · rcases ost with _ | st <;> simp [hml, exceptIsOk, Except.map]
    · rfl

/-- C1: for every frames matrix and onsets matrix with the same number of
rows T and 88 columns, every parameter setting of outputToNotesPoly (and any
melodia-loop fuel), every NoteEvent in the returned list satisfies
`0 ≤ startFrame`, `startFrame + durationFrames ≤ T`,
`durationFrames > minNoteLen` and `21 ≤ pitchMidi ≤ 108`. -/
theorem outputToNotesPoly_note_invariants (frames onsets : Matrix) (T : ℕ)
    (hfl : frames.length = T) (hol : onsets.length = T)
    (hfw : HasWidth frames 88) (how : HasWidth onsets 88)
    (fuel : ℕ) (onsetThresh frameThresh : ℚ) (minNoteLen : ℤ)
    (inferOnsets : Bool) (maxFreq minFreq : Option ℝ) (melodiaTrick : Bool)
    (energyTolerance : ℕ) (ns : List NoteEvent)
    (hres : (outputToNotesPoly fuel frames onsets onsetThresh frameThresh
        minNoteLen inferOnsets maxFreq minFreq melodiaTrick energyTolerance).1
      = Except.ok (some ns)) :
    ∀ e ∈ ns, 0 ≤ e.startFrame ∧ e.startFrame + e.durationFrames ≤ (T : ℤ) ∧
      minNoteLen < e.durationFrames ∧ 21 ≤ e.pitchMidi ∧ e.pitchMidi ≤ 108 := by
  rw [outputToNotesPoly] at hres
  exact (outputToNotesPolyIdx_inv fuel frames onsets T onsetThresh frameThresh
    minNoteLen inferOnsets (freqOptIdx maxFreq) (freqOptIdx minFreq) melodiaTrick
    energyTolerance hfl hol hfw how).1 ns hres

/-- Witness for C1 at a concrete input: the 1-by-88 zero matrices with the
melodia trick off return the empty note list, and the invariant holds of
each of its (no) notes. -/
theorem outputToNotesPoly_note_invariants_witness :
    zeroMat88.length = 1 ∧
    ∀ e ∈ ([] : List NoteEvent), 0 ≤ e.startFrame ∧
      e.startFrame + e.durationFrames ≤ ((1 : ℕ) : ℤ) ∧
      (5 : ℤ) < e.durationFrames ∧ 21 ≤ e.pitchMidi ∧ e.pitchMidi ≤ 108 :=
  ⟨by decide,
    outputToNotesPoly_note_invariants zeroMat88 zeroMat88 1 (by decide) (by decide)
      (by decide) (by decide) 1 1 0 5 false none none false 11 [] (by decide)⟩

/-- C9: for every non-empty frames and onsets input (T ≥ 1 rows, 88 columns)
with frameThresh ≥ 0, outputToNotesPoly never reaches the two
invariant-violation error branches of the melodia pass (iStart below 0 or
iEnd past the end): the result is always `Except.ok`. -/
theorem outputToNotesPoly_no_invariant_errors (frames onsets : Matrix) (T : ℕ)
    (hT : 1 ≤ T) (hfl : frames.length = T) (hol : onsets.length = T)
    (hfw : HasWidth frames 88) (how : HasWidth onsets 88)
    (frameThresh : ℚ) (hth : 0 ≤ frameThresh)
    (fuel : ℕ) (onsetThresh : ℚ) (minNoteLen : ℤ) (inferOnsets : Bool)
    (maxFreq minFreq : Option ℝ) (melodiaTrick : Bool) (energyTolerance : ℕ) :
    exceptIsOk (outputToNotesPoly fuel frames onsets onsetThresh frameThresh
      minNoteLen inferOnsets maxFreq minFreq melodiaTrick energyTolerance).1
      = true := by
  rw [outputToNotesPoly]
  exact (outputToNotesPolyIdx_inv fuel frames onsets T onsetThresh frameThresh
    minNoteLen inferOnsets (freqOptIdx maxFreq) (freqOptIdx minFreq) melodiaTrick
    energyTolerance hfl hol hfw how).2 hT

/-- Witness for C9 at a concrete input: on the 1-by-88 zero matrices with
the melodia trick on and `frameThresh = 0`, the decoder returns `ok`. -/
theorem outputToNotesPoly_no_invariant_errors_witness :
    (0 : ℚ) ≤ 0 ∧
    exceptIsOk (outputToNotesPoly 1 zeroMat88 zeroMat88 1 0 5 false none none
      true 11).1 = true :=
  ⟨le_refl 0,
    outputToNotesPoly_no_invariant_errors zeroMat88 zeroMat88 1 (by decide)
      (by decide) (by decide) (by decide) (by decide) 0 (le_refl 0) 1 1 5 false
      none none true 11⟩

/-! # Entries written by the melodia pass are all zero -/

theorem getD_set_entry (l : List ℚ) (j : ℕ) (v : ℚ) (c : ℕ) :
    (l.set j v).getD c 0 = if j = c ∧ j < l.length then v else l.getD c 0 := by
  by_cases h : j = c
  · subst h
    by_cases hj : j < l.length
    · rw [if_pos ⟨rfl, hj⟩, List.getD_eq_getElem?_getD, List.getElem?_set,
        if_pos rfl, if_pos hj]
      rfl
    · rw [if_neg (fun hc : j = j ∧ j < l.length => hj hc.2),
        List.set_eq_of_length_le (by omega)]
  · rw [if_neg (fun hc : j = c ∧ j < l.length => h hc.1),
      List.getD_eq_getElem?_getD, List.getElem?_set, if_neg h,
      ← List.getD_eq_getElem?_getD]

theorem mset_row_getD (A : Matrix) (i j : ℕ) (v : ℚ) (r : ℕ) :
    (mset A i j v).getD r []
      = if i = r ∧ i < A.length then (A.getD i []).set j v else A.getD r [] := by
  rw [List.getD_eq_getElem?_getD, mset_getElem?]
  split
  · rfl
  · rw [List.getD_eq_getElem?_getD]

theorem mset_entry_zero (A : Matrix) (i j r c : ℕ) :
    mget (mset A i j 0) r c = mget A r c ∨ mget (mset A i j 0) r c = 0 := by
  rw [mget, mset_row_getD]
  split
  · rename_i h
    rw [getD_set_entry]
    split
    · right
      rfl
    · left
      rw [mget, h.1]
  · left
    rfl

theorem mset_cell_zero (A : Matrix) (i j : ℕ) (hi : i < A.length)
    (hj : j < (A.getD i []).length) : mget (mset A i j 0) i j = 0 := by
  rw [mget, mset_row_getD, if_pos ⟨rfl, hi⟩, getD_set_entry, if_pos ⟨rfl, hj⟩]

theorem msetZ_entry_zero (A : Matrix) (i j : ℤ) (r c : ℕ) :
    mget (msetZ A i j 0) r c = mget A r c ∨ mget (msetZ A i j 0) r c = 0 := by
  rw [msetZ]
  split
  · exact mset_entry_zero A _ _ r c
  · left
    rfl

theorem entry_zero_trans {a b c : ℚ} (h1 : b = a ∨ b = 0) (h2 : c = b ∨ c = 0) :
    c = a ∨ c = 0 := by
  rcases h1 with h1 | h1 <;> rcases h2 with h2 | h2 <;> simp [h1, h2]

theorem zeroNeighbors_entry (e : Matrix) (j freq : ℤ) (r c : ℕ) :
    mget (zeroNeighbors e j freq) r c = mget e r c ∨
    mget (zeroNeighbors e j freq) r c = 0 := by
  rw [zeroNeighbors]
  split <;> split <;>
    first
      | exact entry_zero_trans (entry_zero_trans (msetZ_entry_zero _ _ _ r c)
          (msetZ_entry_zero _ _ _ r c)) (msetZ_entry_zero _ _ _ r c)
      | exact entry_zero_trans (msetZ_entry_zero _ _ _ r c)
          (msetZ_entry_zero _ _ _ r c)
      | exact msetZ_entry_zero _ _ _ r c

theorem zScan_entry (thresh : ℚ) (freq : ℤ) (tol : ℕ) (step : ℤ) :
    ∀ (n : ℕ) (e : Matrix) (i : ℤ) (k : ℕ) (r c : ℕ),
      mget (zScan thresh freq tol step n e i k).1 r c = mget e r c ∨
      mget (zScan thresh freq tol step n e i k).1 r c = 0 := by
  intro n
  induction n with
  | zero =>
    intro e i k r c
    rw [zScan]
    left
    rfl
  | succ n ih =>
    intro e i k r c
    rw [zScan]
    by_cases hk : k < tol
    · rw [if_pos hk]
      exact entry_zero_trans (zeroNeighbors_entry e i freq r c) (ih _ _ _ r c)
    · rw [if_neg hk]
      left
      rfl

/-! # countAbove decreases at each melodia iteration -/

theorem countP_getD_le (p : ℚ → Bool) :
    ∀ (l l' : List ℚ), l'.length = l.length →
      (∀ j, j < l.length → p (l'.getD j 0) = true → p (l.getD j 0) = true) →
      l'.countP p ≤ l.countP p := by
  intro l
  induction l with
  | nil =>
    intro l' hlen _
    rw [List.length_nil, List.length_eq_zero] at hlen
    subst hlen
    exact le_refl _
  | cons a as ih =>
    intro l' hlen hp
    rcases l' with _ | ⟨b, bs⟩
    · simp
    · rw [List.countP_cons, List.countP_cons]
      have hlen' : bs.length = as.length := by
        simpa using hlen
      have h0 := hp 0 (by simp)
      have hrest := ih bs hlen' (fun j hj hpj => by
        have := hp (j + 1) (by simpa using Nat.succ_lt_succ hj) (by simpa using hpj)
        simpa using this)
      by_cases hb : p b = true
      · have ha : p a = true := by
          have := h0 (by simpa using hb)
          simpa using this
        have e1 : (if p b = true then 1 else 0) = 1 := by rw [hb]; rfl
        have e2 : (if p a = true then 1 else 0) = 1 := by rw [ha]; rfl
        rw [e1, e2]
        omega
      · have hbf : p b = false := by
          cases hpb : p b
          · rfl
          · exact absurd hpb hb
        have e1 : (if p b = true then 1 else 0) = 0 := by rw [hbf]; rfl
        rw [e1]
        omega

theorem countP_getD_lt (p : ℚ → Bool) :
    ∀ (l l' : List ℚ), l'.length = l.length →
      (∀ j, j < l.length → p (l'.getD j 0) = true → p (l.getD j 0) = true) →
      ∀ j0, j0 < l.length → p (l.getD j0 0) = true → p (l'.getD j0 0) = false →
      l'.countP p < l.countP p := by
  intro l
  induction l with
  | nil =>
    intro l' _ _ j0 hj0
    cases hj0
  | cons a as ih =>
    intro l' hlen hp j0 hj0 hpt hpf
    rcases l' with _ | ⟨b, bs⟩
    · simp at hlen
    · rw [List.countP_cons, List.countP_cons]
      have hlen' : bs.length = as.length := by simpa using hlen
      have hrestle := countP_getD_le p as bs hlen' (fun j hj hpj => by
        have := hp (j + 1) (by simpa using Nat.succ_lt_succ hj) (by simpa using hpj)
        simpa using this)
      rcases j0 with _ | j0
      · simp only [List.getD_cons_zero] at hpt hpf
        have e1 : (if p b = true then 1 else 0) = 0 := by rw [hpf]; rfl
        have e2 : (if p a = true then 1 else 0) = 1 := by rw [hpt]; rfl
        rw [e1, e2]
        omega
      · have hj0' : j0 < as.length := by simpa using hj0
        have hrest := ih bs hlen' (fun j hj hpj => by
          have := hp (j + 1) (by simpa using Nat.succ_lt_succ hj) (by simpa using hpj)
          simpa using this) j0 hj0' (by simpa using hpt) (by simpa using hpf)
        have h0 := hp 0 (by simp)
        by_cases hb : p b = true
        · have ha : p a = true := by
            have := h0 (by simpa using hb)
            simpa using this
          have e1 : (if p b = true then 1 else 0) = 1 := by rw [hb]; rfl
          have e2 : (if p a = true then 1 else 0) = 1 := by rw [ha]; rfl
          rw [e1, e2]
          omega
        · have hbf : p b = false := by
            cases hpb : p b
            · rfl
            · exact absurd hpb hb
          have e1 : (if p b = true then 1 else 0) = 0 := by rw [hbf]; rfl
          rw [e1]
          omega

theorem sum_getD_le :
    ∀ (xs ys : List ℕ), ys.length = xs.length →
      (∀ i, i < xs.length → ys.getD i 0 ≤ xs.getD i 0) → ys.sum ≤ xs.sum := by
  intro xs
  induction xs with
  | nil =>
    intro ys hlen _
    rw [List.length_nil, List.length_eq_zero] at hlen
    subst hlen
    exact le_refl _
  | cons x xs ih =>
    intro ys hlen hp
    rcases ys with _ | ⟨y, ys⟩
    · simp
    · rw [List.sum_cons, List.sum_cons]
      have h0 := hp 0 (by simp)
      simp only [List.getD_cons_zero] at h0
      have := ih ys (by simpa using hlen) (fun i hi => by
        have := hp (i + 1) (by simpa using Nat.succ_lt_succ hi)
        simpa using this)
      omega

theorem sum_getD_lt :
    ∀ (xs ys : List ℕ), ys.length = xs.length →
      (∀ i, i < xs.length → ys.getD i 0 ≤ xs.getD i 0) →
      ∀ i0, i0 < xs.length → ys.getD i0 0 < xs.getD i0 0 → ys.sum < xs.sum := by
  intro xs
  induction xs with
  | nil =>
    intro ys _ _ i0 hi0
    cases hi0
  | cons x xs ih =>
    intro ys hlen hp i0 hi0 hlt
    rcases ys with _ | ⟨y, ys⟩
    · simp at hlen
    · rw [List.sum_cons, List.sum_cons]
      have h0 := hp 0 (by simp)
      simp only [List.getD_cons_zero] at h0
      have hrestle := sum_getD_le xs ys (by simpa using hlen) (fun i hi => by
        have := hp (i + 1) (by simpa using Nat.succ_lt_succ hi)
        simpa using this)
      rcases i0 with _ | i0
      · simp only [List.getD_cons_zero] at hlt
        omega
      · have := ih ys (by simpa using hlen) (fun i hi => by
          have := hp (i + 1) (by simpa using Nat.succ_lt_succ hi)
          simpa using this) i0 (by simpa using hi0) (by simpa using hlt)
        omega

theorem map_getD_of_lt (f : List ℚ → ℕ) {A : Matrix} {i : ℕ} (h : i < A.length) :
    (A.map f).getD i 0 = f (A.getD i []) := by
  rw [List.getD_eq_getElem?_getD, List.getElem?_map, List.getElem?_eq_getElem h,
    getD_of_lt h]
  rfl

theorem countAbove_lt {thresh : ℚ} (hth : 0 ≤ thresh) (e e' : Matrix)
    (hlen : e'.length = e.length)
    (hwid : ∀ i, i < e.length → (e'.getD i []).length = (e.getD i []).length)
    (hent : ∀ r c, mget e' r c = mget e r c ∨ mget e' r c = 0)
    (i0 j0 : ℕ) (hi0 : i0 < e.length) (hj0 : j0 < (e.getD i0 []).length)
    (hgt : thresh < mget e i0 j0) (hz : mget e' i0 j0 = 0) :
    countAbove thresh e' < countAbove thresh e := by
  have hmono : ∀ i, i < e.length →
      ((e'.map (fun row => row.countP (fun v => decide (thresh < v)))).getD i 0)
        ≤ ((e.map (fun row => row.countP (fun v => decide (thresh < v)))).getD i 0) := by
    intro i hi
    rw [map_getD_of_lt _ hi, map_getD_of_lt _ (show i < e'.length by omega)]
    apply countP_getD_le _ _ _ (hwid i hi)
    intro j _ hpj
    have hpv : thresh < (e'.getD i []).getD j 0 := of_decide_eq_true hpj
    rcases hent i j with h | h
    · rw [mget, mget] at h
      rw [← h]
      exact hpj
    · rw [mget] at h
      rw [h] at hpv
      exact absurd hpv (not_lt.2 hth)
  rw [countAbove, countAbove]
  apply sum_getD_lt _ _ (by rw [List.length_map, List.length_map, hlen])
    (fun i hi => hmono i (by rw [List.length_map] at hi; exact hi)) i0
    (by rw [List.length_map]; exact hi0)
  rw [map_getD_of_lt _ hi0, map_getD_of_lt _ (show i0 < e'.length by omega)]
  apply countP_getD_lt _ _ _ (hwid i0 hi0)
  · intro j _ hpj
    have hpv : thresh < (e'.getD i0 []).getD j 0 := of_decide_eq_true hpj
    rcases hent i0 j with h | h
    · rw [mget, mget] at h
      rw [← h]
      exact hpj
    · rw [mget] at h
      rw [h] at hpv
      exact absurd hpv (not_lt.2 hth)
  · exact hj0
  · exact decide_eq_true hgt
  · rw [mget] at hz
    rw [hz]
    exact decide_eq_false (not_lt.2 hth)

theorem melodiaStep_entries (frames : Matrix) (thresh : ℚ) (minNoteLen : ℤ)
    (tol : ℕ) (T : ℤ) (energy : Matrix) (notes : List NoteEvent) :
    ∀ st, melodiaStep frames thresh minNoteLen tol T energy notes = Except.ok st →
      (∀ r c, mget st.1 r c = mget energy r c ∨ mget st.1 r c = 0) ∧
      ((argMaxCell energy).1.toNat < energy.length →
       (argMaxCell energy).2.toNat
         < (energy.getD (argMaxCell energy).1.toNat []).length →
       mget st.1 (argMaxCell energy).1.toNat (argMaxCell energy).2.toNat = 0) := by
  obtain ⟨hc1, hc2, _, _⟩ := argMaxCell_spec energy
  simp only [melodiaStep]
  set c := argMaxCell energy with hc
  set e0 := msetZ energy c.1 c.2 0 with he0
  set fwd := zScan thresh c.2 tol 1 (T - 1 - (c.1 + 1)).toNat e0 (c.1 + 1) 0 with hfwd
  set bwd := zScan thresh c.2 tol (-1) (c.1 - 1).toNat fwd.1 (c.1 - 1) 0 with hbwd
  have hrel : ∀ r c', mget bwd.1 r c' = mget energy r c' ∨ mget bwd.1 r c' = 0 := by
    intro r c'
    have h1 : mget e0 r c' = mget energy r c' ∨ mget e0 r c' = 0 := by
      rw [he0]
      exact msetZ_entry_zero energy c.1 c.2 r c'
    have h2 : mget fwd.1 r c' = mget e0 r c' ∨ mget fwd.1 r c' = 0 := by
      rw [hfwd]
      exact zScan_entry thresh c.2 tol 1 _ e0 _ 0 r c'
    have h3 : mget bwd.1 r c' = mget fwd.1 r c' ∨ mget bwd.1 r c' = 0 := by
      rw [hbwd]
      exact zScan_entry thresh c.2 tol (-1) _ fwd.1 _ 0 r c'
    exact entry_zero_trans (entry_zero_trans h1 h2) h3
  have hcell : c.1.toNat < energy.length →
      c.2.toNat < (energy.getD c.1.toNat []).length →
      mget bwd.1 c.1.toNat c.2.toNat = 0 := by
    intro hI hJ
    have hz0 : mget e0 c.1.toNat c.2.toNat = 0 := by
      rw [he0, msetZ, if_pos ⟨hc1, hc2⟩]
      exact mset_cell_zero energy c.1.toNat c.2.toNat hI hJ
    have h2 : mget fwd.1 c.1.toNat c.2.toNat = mget e0 c.1.toNat c.2.toNat ∨
        mget fwd.1 c.1.toNat c.2.toNat = 0 := by
      rw [hfwd]
      exact zScan_entry thresh c.2 tol 1 _ e0 _ 0 _ _
    have h3 : mget bwd.1 c.1.toNat c.2.toNat = mget fwd.1 c.1.toNat c.2.toNat ∨
        mget bwd.1 c.1.toNat c.2.toNat = 0 := by
      rw [hbwd]
      exact zScan_entry thresh c.2 tol (-1) _ fwd.1 _ 0 _ _
    rcases entry_zero_trans h2 h3 with h | h
    · rw [h, hz0]
    · exact h
  intro st hst
  rw [if_neg (not_lt.2 (show (0:ℤ) ≤ bwd.2.1 + 1 + (bwd.2.2 : ℤ) from ?_))] at hst
  · by_cases hTe : T ≤ fwd.2.1 - 1 - (fwd.2.2 : ℤ)
    · rw [if_pos hTe] at hst
      cases hst
    · rw [if_neg hTe] at hst
      by_cases hms : fwd.2.1 - 1 - (fwd.2.2 : ℤ) - (bwd.2.1 + 1 + (bwd.2.2 : ℤ))
          ≤ minNoteLen
      · rw [if_pos hms] at hst
        injection hst with hst
        subst hst
        exact ⟨hrel, hcell⟩
      · rw [if_neg hms] at hst
        injection hst with hst
        subst hst
        exact ⟨hrel, hcell⟩
  · obtain ⟨t2, ht2, hbi⟩ := zScan_i_shift thresh c.2 tol (-1)
      ((c.1 - 1).toNat) fwd.1 (c.1 - 1) 0
    rw [← hbwd] at hbi
    omega

theorem melodiaStep_decreases (frames : Matrix) (thresh : ℚ) (minNoteLen : ℤ)
    (tol : ℕ) (T : ℤ) (energy : Matrix) (notes : List NoteEvent)
    (hw : HasWidth energy 88) (hth : 0 ≤ thresh)
    (hguard : thresh < globalMax energy) :
    ∀ st, melodiaStep frames thresh minNoteLen tol T energy notes = Except.ok st →
      countAbove thresh st.1 < countAbove thresh energy := by
  obtain ⟨hc1, hc2, hatt, _⟩ := argMaxCell_spec energy
  have hval : thresh < mgetZ energy (argMaxCell energy).1 (argMaxCell energy).2 := by
    rcases globalMax_zero_or_mem energy with h | ⟨row, hrow, hmem⟩
    · rw [h] at hguard
      exact absurd hguard (not_lt.2 hth)
    · exact lt_of_lt_of_le hguard (hatt row hrow _ hmem)
  have hnn : mgetZ energy (argMaxCell energy).1 (argMaxCell energy).2
      = mget energy (argMaxCell energy).1.toNat (argMaxCell energy).2.toNat :=
    mgetZ_of_nonneg hc1 hc2
  rw [hnn] at hval
  have hne : mget energy (argMaxCell energy).1.toNat (argMaxCell energy).2.toNat
      ≠ 0 := by
    intro h
    rw [h] at hval
    exact absurd hval (not_lt.2 hth)
  obtain ⟨hI, hJ⟩ := mget_ne_zero hne
  intro st hst
  obtain ⟨hL, hW, _⟩ :=
    (melodiaStep_main frames thresh minNoteLen tol T energy notes hw).1 st hst
  obtain ⟨hent, hcell⟩ :=
    melodiaStep_entries frames thresh minNoteLen tol T energy notes st hst
  apply countAbove_lt hth energy st.1 hL ?_ hent
    (argMaxCell energy).1.toNat (argMaxCell energy).2.toNat hI hJ hval
    (hcell hI hJ)
  intro i hi
  rw [hasWidth_getD hw hi, hasWidth_getD hW (by omega)]

theorem melodiaLoop_terminates (frames : Matrix) (thresh : ℚ) (minNoteLen : ℤ)
    (tol : ℕ) (T : ℤ) (hth : 0 ≤ thresh) :
    ∀ (m : ℕ) (energy : Matrix) (notes : List NoteEvent),
      HasWidth energy 88 → countAbove thresh energy < m →
      melodiaLoop frames thresh minNoteLen tol T m energy notes
        ≠ Except.ok none := by
  intro m
  induction m with
  | zero =>
    intro energy notes _ hcount
    exact absurd hcount (Nat.not_lt_zero _)
  | succ m ih =>
    intro energy notes hw hcount
    rw [melodiaLoop]
    split
    · rename_i hguard
      rcases hms : melodiaStep frames thresh minNoteLen tol T energy notes
          with msg | st
      · simp only [hms]
        exact fun h => Except.noConfusion h
      · simp only [hms]
        have hdec := melodiaStep_decreases frames thresh minNoteLen tol T energy
          notes hw hth hguard st hms
        obtain ⟨_, hW, _⟩ :=
          (melodiaStep_main frames thresh minNoteLen tol T energy notes hw).1 st hms
        exact ih st.1 st.2 hW (by omega)
    · intro h
      injection h with h
      cases h

/-- C2 (amended): when frameThresh is nonnegative (as its default 0.3 is),
the melodia continuation loop of outputToNotesPoly terminates on every pair
of 88-column matrices: some finite fuel makes the embedded loop exit,
because each iteration zeroes the cell holding the current (positive) global
maximum, no write ever increases a cell, and so the number of entries above
frameThresh strictly decreases. -/
theorem outputToNotesPoly_melodia_terminates (frames onsets : Matrix)
    (hfw : HasWidth frames 88) (how : HasWidth onsets 88)
    (onsetThresh frameThresh : ℚ) (hth : 0 ≤ frameThresh) (minNoteLen : ℤ)
    (inferOnsets : Bool) (maxFreq minFreq : Option ℝ) (energyTolerance : ℕ) :
    ∃ fuel, (outputToNotesPoly fuel frames onsets onsetThresh frameThresh
      minNoteLen inferOnsets maxFreq minFreq true energyTolerance).1
        ≠ Except.ok none := by
  simp only [outputToNotesPoly]
  obtain ⟨hc1, hc2, hc3⟩ :=
    constrainFrequencyIdx_shape onsets frames (freqOptIdx maxFreq) (freqOptIdx minFreq)
  simp only [outputToNotesPolyIdx]
  set cf := constrainFrequencyIdx onsets frames (freqOptIdx maxFreq)
    (freqOptIdx minFreq) with hcf
  have hone : HasWidth cf.1 88 := (hc3 88).1 how
  have htwo : HasWidth cf.2 88 := (hc3 88).2 hfw
  set io := if inferOnsets = true then getInferredOnsets cf.1 cf.2 else cf.1 with hio
  have hioW : HasWidth io 88 := by
    rw [hio]
    split
    · exact (getInferredOnsets_shape cf.1 cf.2 2).2 88 hone
    · exact hone
  set ptm := peakThresholdMatrix io with hptm
  have hptmW : HasWidth ptm 88 := (peakThresholdMatrix_shape io).2 88 hioW
  have hpairs : ∀ p ∈ ((whereGreaterThanAxis1 ptm onsetThresh).1.reverse.zip
      (whereGreaterThanAxis1 ptm onsetThresh).2.reverse), p.2 < 88 := by
    intro p hp
    have hz : (whereGreaterThanAxis1 ptm onsetThresh).1.reverse.zip
        (whereGreaterThanAxis1 ptm onsetThresh).2.reverse
        = (whereGreaterPairs onsetThresh 0 ptm).reverse := by
      rw [whereGreaterThanAxis1]
      rw [← List.map_reverse, ← List.map_reverse]
      exact zip_map_fst_snd _
    rw [hz, List.mem_reverse] at hp
    rcases mem_whereGreaterPairs ptm 0 p hp with ⟨r, hr, _, hpj⟩
    have := hasWidth_getD hptmW hr
    omega
  set folded := (((whereGreaterThanAxis1 ptm onsetThresh).1.reverse.zip
      (whereGreaterThanAxis1 ptm onsetThresh).2.reverse).foldl
    (onsetStep cf.2 frameThresh minNoteLen energyTolerance (frames.length : ℤ))
    (cf.2, [])) with hfolded
  obtain ⟨hfw1, _, _⟩ := onsetFold_inv cf.2 frameThresh minNoteLen
    energyTolerance (frames.length : ℤ)
    ((whereGreaterThanAxis1 ptm onsetThresh).1.reverse.zip
      (whereGreaterThanAxis1 ptm onsetThresh).2.reverse)
    (cf.2, []) htwo (by intro e he; cases he) hpairs
  rw [← hfolded] at hfw1
  refine ⟨countAbove frameThresh folded.1 + 1, ?_⟩
  have hloop := melodiaLoop_terminates cf.2 frameThresh minNoteLen
    energyTolerance (frames.length : ℤ) hth (countAbove frameThresh folded.1 + 1)
    folded.1 folded.2 hfw1 (by omega)
  split
  · rcases hml : melodiaLoop cf.2 frameThresh minNoteLen energyTolerance
        (frames.length : ℤ) (countAbove frameThresh folded.1 + 1)
        folded.1 folded.2 with msg | ost
    · simp only [hml, Except.map]
      exact fun h => Except.noConfusion h
    · rcases ost with _ | st
      · exact absurd hml hloop
      · simp only [hml, Except.map, Option.map]
        intro h
        injection h with h
        cases h
  · rename_i hfalse
    exact absurd trivial hfalse

/-- Witness for the amended C2 at a concrete input. -/
theorem outputToNotesPoly_melodia_terminates_witness :
    (0 : ℚ) ≤ 0 ∧
    ∃ fuel, (outputToNotesPoly fuel zeroMat88 zeroMat88 1 0 5 false none none
      true 11).1 ≠ Except.ok none :=
  ⟨le_refl 0,
    outputToNotesPoly_melodia_terminates zeroMat88 zeroMat88 (by decide)
      (by decide) 1 0 (le_refl 0) 5 false none none 11⟩

set_option maxRecDepth 40000 in
/-- C2 (counterexample): with `frameThresh = -1` on the 1-by-88 all-zero
matrices, the melodia loop guard `globalMax remainingEnergy > frameThresh`
holds forever (globalMax of the zero matrix is 0) while each iteration only
rewrites zeros by zeros, so the loop never exits whatever fuel it gets: the
claim that the pass always terminates is false for a negative frameThresh. -/
theorem melodia_loop_can_run_forever : melodiaLoopStuck := by
  have hstep : melodiaStep zeroMat88 (-1) 5 11 1 zeroMat88 []
      = Except.ok (zeroMat88, []) := by decide
  have hloop : ∀ n, melodiaLoop zeroMat88 (-1) 5 11 1 n zeroMat88 []
      = Except.ok none := by
    intro n
    induction n with
    | zero =>
      rw [melodiaLoop, if_pos (by decide)]
    | succ n ih =>
      rw [melodiaLoop, if_pos (by decide)]
      simp only [hstep]
      exact ih
  intro fuel
  have key : ∀ r : Except String (Option (Matrix × List NoteEvent)),
      r = Except.ok none →
      Except.map (fun (o : Option (Matrix × List NoteEvent)) =>
        o.map (fun st => st.2)) r = Except.ok none := by
    rintro r rfl
    rfl
  exact key _ (hloop fuel)

/-- C8: with both frequency bounds null, outputToNotesPoly leaves its frames
and onsets arguments observably unchanged after it returns: the
constrainFrequency step is skipped, all note-extension and melodia zeroing
happens on the remaining-energy copy of frames, and onset inference builds
fresh matrices, so the frames and onsets the decoder hands back are the very
inputs. -/
theorem outputToNotesPoly_pure_on_null_freqs (fuel : ℕ) (frames onsets : Matrix)
    (onsetThresh frameThresh : ℚ) (minNoteLen : ℤ)
    (inferOnsets melodiaTrick : Bool) (energyTolerance : ℕ) :
    (outputToNotesPoly fuel frames onsets onsetThresh frameThresh minNoteLen
      inferOnsets none none melodiaTrick energyTolerance).2.1 = frames ∧
    (outputToNotesPoly fuel frames onsets onsetThresh frameThresh minNoteLen
      inferOnsets none none melodiaTrick energyTolerance).2.2 = onsets := by
  constructor <;>
    · simp only [outputToNotesPoly, outputToNotesPolyIdx]
      split <;> rfl

/-! # Idempotence of constrainFrequency -/

theorem jsFill_zero_idem (r : List ℚ) (s e : ℤ) :
    jsFill (jsFill r 0 s e) 0 s e = jsFill r 0 s e := by
  apply List.ext_getElem?
  intro i
  simp only [jsFill_getElem?, jsFill_length]
  rcases r[i]? with _ | v
  · rfl
  · simp only [Option.map_some']
    by_cases h : jsNormIdx r.length s ≤ i ∧ i < jsNormIdx r.length e <;>
      simp [h]

theorem jsFill_zero_idem_pair (r : List ℚ) (s1 e1 s2 e2 : ℤ) :
    jsFill (jsFill (jsFill (jsFill r 0 s1 e1) 0 s2 e2) 0 s1 e1) 0 s2 e2
      = jsFill (jsFill r 0 s1 e1) 0 s2 e2 := by
  apply List.ext_getElem?
  intro i
  simp only [jsFill_getElem?, jsFill_length]
  rcases r[i]? with _ | v
  · rfl
  · simp only [Option.map_some']
    by_cases h1 : jsNormIdx r.length s1 ≤ i ∧ i < jsNormIdx r.length e1 <;>
      by_cases h2 : jsNormIdx r.length s2 ≤ i ∧ i < jsNormIdx r.length e2 <;>
        simp [h1, h2]

theorem constrainFrequencyIdx_idem (o f : Matrix) (maxIdx minIdx : Option ℤ) :
    constrainFrequencyIdx (constrainFrequencyIdx o f maxIdx minIdx).1
      (constrainFrequencyIdx o f maxIdx minIdx).2 maxIdx minIdx
    = constrainFrequencyIdx o f maxIdx minIdx := by
  have hmaxlen : ∀ (r : List ℚ) (mi : ℤ),
      jsFill (jsFill r 0 mi (r.length : ℤ)) 0 mi ((jsFill r 0 mi (r.length : ℤ)).length : ℤ)
        = jsFill r 0 mi (r.length : ℤ) := by
    intro r mi
    rw [jsFill_length]
    exact jsFill_zero_idem r mi (r.length : ℤ)
  rcases maxIdx with _ | mi <;> rcases minIdx with _ | ni
  · rfl
  · show ((o.map (fun r => jsFill r 0 0 ni)).map (fun r => jsFill r 0 0 ni),
      (f.map (fun r => jsFill r 0 0 ni)).map (fun r => jsFill r 0 0 ni)) = _
    rw [List.map_map, List.map_map]
    have hfun : ((fun r => jsFill r 0 0 ni) ∘ (fun r : List ℚ => jsFill r 0 0 ni))
        = (fun r : List ℚ => jsFill r 0 0 ni) := by
      funext r
      exact jsFill_zero_idem r 0 ni
    rw [hfun]
    rfl
  · show ((o.map (fun r => jsFill r 0 mi (r.length : ℤ))).map
        (fun r => jsFill r 0 mi (r.length : ℤ)),
      (f.map (fun r => jsFill r 0 mi (r.length : ℤ))).map
        (fun r => jsFill r 0 mi (r.length : ℤ))) = _
    rw [List.map_map, List.map_map]
    have hfun : ((fun r => jsFill r 0 mi (r.length : ℤ)) ∘
        (fun r : List ℚ => jsFill r 0 mi (r.length : ℤ)))
        = (fun r : List ℚ => jsFill r 0 mi (r.length : ℤ)) := by
      funext r
      exact hmaxlen r mi
    rw [hfun]
    rfl
  · show (((o.map (fun r => jsFill r 0 mi (r.length : ℤ))).map
          (fun r => jsFill r 0 0 ni)).map (fun r => jsFill r 0 mi (r.length : ℤ))
        |>.map (fun r => jsFill r 0 0 ni),
      ((f.map (fun r => jsFill r 0 mi (r.length : ℤ))).map
          (fun r => jsFill r 0 0 ni)).map (fun r => jsFill r 0 mi (r.length : ℤ))
        |>.map (fun r => jsFill r 0 0 ni)) = _
    rw [List.map_map, List.map_map, List.map_map, List.map_map,
      List.map_map, List.map_map]
    have hfun : ((((fun r => jsFill r 0 0 ni) ∘
          (fun r : List ℚ => jsFill r 0 mi (r.length : ℤ))) ∘
          (fun r : List ℚ => jsFill r 0 0 ni)) ∘
          (fun r : List ℚ => jsFill r 0 mi (r.length : ℤ)))
        = ((fun r => jsFill r 0 0 ni) ∘
          (fun r : List ℚ => jsFill r 0 mi (r.length : ℤ))) := by
      funext r
      show jsFill (jsFill (jsFill (jsFill r 0 mi (r.length : ℤ)) 0 0 ni) 0 mi
          ((jsFill (jsFill r 0 mi (r.length : ℤ)) 0 0 ni).length : ℤ)) 0 0 ni
        = jsFill (jsFill r 0 mi (r.length : ℤ)) 0 0 ni
      rw [jsFill_length, jsFill_length]
      exact jsFill_zero_idem_pair r mi (r.length : ℤ) 0 ni
    rw [hfun, ← List.map_map, ← List.map_map]
    rfl

/-- C7: applying constrainFrequency twice with the same frequency bounds
produces exactly the matrices produced by applying it once. -/
theorem constrainFrequency_idem (onsets frames : Matrix)
    (maxFreq minFreq : Option ℝ) :
    constrainFrequency (constrainFrequency onsets frames maxFreq minFreq).1
      (constrainFrequency onsets frames maxFreq minFreq).2 maxFreq minFreq
    = constrainFrequency onsets frames maxFreq minFreq := by
  show constrainFrequencyIdx (constrainFrequencyIdx onsets frames
      (freqOptIdx maxFreq) (freqOptIdx minFreq)).1
    (constrainFrequencyIdx onsets frames (freqOptIdx maxFreq)
      (freqOptIdx minFreq)).2 (freqOptIdx maxFreq) (freqOptIdx minFreq)
    = constrainFrequencyIdx onsets frames (freqOptIdx maxFreq) (freqOptIdx minFreq)
  exact constrainFrequencyIdx_idem onsets frames (freqOptIdx maxFreq)
    (freqOptIdx minFreq)

/-- C4: the claim's tie-breaking clause fails in the code.  On the empty
array argMax does return none, and on a non-empty array it returns an index
attaining the maximum, but on the tied input [1, 1] the fold
`arr[maxIndex] > v ? maxIndex : currentIndex` keeps replacing maxIndex on
ties, so the code returns index 1 — the HIGHEST tied index — where the claim
(and the reference implementation it cites) demands the lowest, index 0.
The input [5, 3, 5] shows the same divergence away from the boundary. -/
theorem argMax_tie_returns_last_index :
    argMax ((1 : ℚ) :: 1 :: []) = some 1 ∧
    argMax ((5 : ℚ) :: 3 :: 5 :: []) = some 2 ∧
    argMax ([] : List ℚ) = none := by
  decide

/-! # Pitch bends: length and range -/

theorem jsNormIdx_of_nonneg_le {len : ℕ} {i : ℤ} (h0 : 0 ≤ i)
    (hle : i ≤ (len : ℤ)) : jsNormIdx len i = i.toNat := by
  unfold jsNormIdx
  rw [if_neg (by omega)]
  exact min_eq_left (by omega)

theorem mem_of_mem_jsSlice {α : Type} {l : List α} {s e : ℤ} {x : α}
    (h : x ∈ jsSlice l s e) : x ∈ l := by
  unfold jsSlice at h
  exact List.mem_of_mem_take (List.mem_of_mem_drop h)

theorem argMaxAxis1_bound {α : Type} [LinearOrder α] [Inhabited α]
    (M : List (List α)) (B : ℕ) (hB : ∀ row ∈ M, row.length ≤ B) :
    ∀ x ∈ argMaxAxis1 M, 0 ≤ x ∧ (x = 0 ∨ x < (B : ℤ)) := by
  intro x hx
  rcases List.mem_map.1 hx with ⟨row, hrow, rfl⟩
  rcases hm : argMax row with _ | c
  · simp [hm]
  · have hc := argMax_lt_length hm
    have hrB := hB row hrow
    simp only [Option.getD_some]
    refine ⟨Int.natCast_nonneg c, Or.inr ?_⟩
    exact_mod_cast lt_of_lt_of_le hc hrB

theorem midiPitchToContourBin_eq (p : ℝ) :
    midiPitchToContourBin p = 3 * p - 63 := by
  unfold midiPitchToContourBin midiToHz
  have h1 : (440 : ℝ) * (2 : ℝ) ^ ((p - 69) / 12) / 27.5
      = (2 : ℝ) ^ ((4 : ℝ) + (p - 69) / 12) := by
    rw [Real.rpow_add (by norm_num : (0:ℝ) < 2)]
    have h4 : ((2 : ℝ) ^ (4 : ℝ)) = 16 := by
      rw [show (4 : ℝ) = ((4 : ℕ) : ℝ) by norm_num, Real.rpow_natCast]
      norm_num
    rw [h4]
    have h16 : (440 : ℝ) / 27.5 = 16 := by norm_num
    calc (440 : ℝ) * (2 : ℝ) ^ ((p - 69) / 12) / 27.5
        = 440 / 27.5 * (2 : ℝ) ^ ((p - 69) / 12) := by ring
      _ = 16 * (2 : ℝ) ^ ((p - 69) / 12) := by rw [h16]
  rw [h1, Real.logb_rpow (by norm_num) (by norm_num)]
  ring

theorem freqIdx_of_pitch (pm : ℤ) :
    jsRound (midiPitchToContourBin (pm : ℝ)) = 3 * pm - 63 := by
  rw [midiPitchToContourBin_eq]
  unfold jsRound
  have hcast : (3 : ℝ) * (pm : ℝ) - 63 = ((3 * pm - 63 : ℤ) : ℝ) := by
    push_cast
    ring
  rw [hcast, Int.floor_int_add]
  have hhalf : ⌊(1 : ℝ) / 2⌋ = 0 := by
    rw [Int.floor_eq_zero_iff, Set.mem_Ico]
    norm_num
  rw [hhalf, add_zero]

theorem pitchBendsOf_length (contours : RMatrix) (note : NoteEvent)
    (h0 : 0 ≤ note.startFrame)
    (hT : note.startFrame + note.durationFrames ≤ (contours.length : ℤ))
    (hd : 0 ≤ note.durationFrames) :
    ((pitchBendsOf contours 25 note).length : ℤ) = note.durationFrames := by
  have h1 : jsNormIdx contours.length note.startFrame = note.startFrame.toNat :=
    jsNormIdx_of_nonneg_le h0 (by omega)
  have h2 : jsNormIdx contours.length (note.startFrame + note.durationFrames)
      = (note.startFrame + note.durationFrames).toNat :=
    jsNormIdx_of_nonneg_le (by omega) hT
  simp only [pitchBendsOf, argMaxAxis1, List.length_map, jsSlice_length, h1, h2]
  omega

theorem mapped_slice_length_bound (contours : RMatrix)
    (hw : ∀ r ∈ contours, r.length = 264) (f : ℕ → ℝ → ℝ) (s e S E : ℤ)
    (hS0 : 0 ≤ S) (hS264 : S ≤ 264) (hE0 : 0 ≤ E) (hE264 : E ≤ 264) :
    ∀ row ∈ (jsSlice contours s e).map (fun d => idxMap f (jsSlice d S E)),
      row.length ≤ (E - S).toNat := by
  intro row hrow
  rcases List.mem_map.1 hrow with ⟨d, hd, rfl⟩
  rw [idxMap_length, jsSlice_length, hw d (mem_of_mem_jsSlice hd)]
  rw [jsNormIdx_of_nonneg_le hE0 (by omega), jsNormIdx_of_nonneg_le hS0 (by omega)]
  omega

theorem pitchBendsOf_entries (contours : RMatrix) (note : NoteEvent)
    (hw : ∀ r ∈ contours, r.length = 264)
    (hp1 : 21 ≤ note.pitchMidi) (hp2 : note.pitchMidi ≤ 108) :
    ∀ b ∈ pitchBendsOf contours 25 note, -25 ≤ b ∧ b ≤ 25 := by
  intro b hb
  simp only [pitchBendsOf, N_FREQ_BINS_CONTOURS] at hb
  rw [freqIdx_of_pitch] at hb
  push_cast at hb
  rcases List.mem_map.1 hb with ⟨x, hx, rfl⟩
  have hS0 : (0 : ℤ) ≤ max (3 * note.pitchMidi - 63 - 25) 0 := le_max_right _ _
  have hS264 : max (3 * note.pitchMidi - 63 - 25) 0 ≤ 264 := by omega
  have hE0 : (0 : ℤ) ≤ min 264 (3 * note.pitchMidi - 63 + 25 + 1) := by omega
  have hE264 : min 264 (3 * note.pitchMidi - 63 + 25 + 1) ≤ 264 :=
    min_le_left _ _
  rcases argMaxAxis1_bound _ _
    (mapped_slice_length_bound contours hw _ note.startFrame
      (note.startFrame + note.durationFrames)
      (max (3 * note.pitchMidi - 63 - 25) 0)
      (min 264 (3 * note.pitchMidi - 63 + 25 + 1)) hS0 hS264 hE0 hE264)
    x hx with ⟨hx0, hx1⟩
  constructor <;> omega

/-- C5 (amended): for contours with 264 columns and notes with
0 ≤ startFrame, startFrame + durationFrames within the contour rows,
21 ≤ pitchMidi ≤ 108 AND — the added hypothesis — 0 ≤ durationFrames, every
note returned by addPitchBendsToNoteEvents with the default
nBinsTolerance = 25 carries a pitchBends list whose length equals
durationFrames and whose entries all lie in [−25, 25]. -/
theorem addPitchBends_length_and_range (contours : RMatrix)
    (notes : List NoteEvent)
    (hw : ∀ r ∈ contours, r.length = 264)
    (hn : ∀ e ∈ notes, 0 ≤ e.startFrame ∧
      e.startFrame + e.durationFrames ≤ (contours.length : ℤ) ∧
      0 ≤ e.durationFrames ∧ 21 ≤ e.pitchMidi ∧ e.pitchMidi ≤ 108) :
    ∀ e ∈ addPitchBendsToNoteEvents contours notes 25,
      ∃ bends : List ℤ, e.pitchBends = some bends ∧
        (bends.length : ℤ) = e.durationFrames ∧
        ∀ b ∈ bends, -25 ≤ b ∧ b ≤ 25 := by
  intro e he
  simp only [addPitchBendsToNoteEvents] at he
  rcases List.mem_map.1 he with ⟨note, hnote, rfl⟩
  obtain ⟨h0, hT, hd, hp1, hp2⟩ := hn note hnote
  exact ⟨pitchBendsOf contours 25 note, rfl,
    pitchBendsOf_length contours note h0 hT hd,
    pitchBendsOf_entries contours note hw hp1 hp2⟩

/-- C5 (counterexample): cexNote satisfies every hypothesis the claim lists —
nonnegative start, startFrame + durationFrames within the (1-row, 264-column)
contour matrix, pitch on the 88-key range — yet its durationFrames is −1, and
the pitch-bend list addPitchBendsToNoteEvents attaches to it is empty: its
length 0 differs from durationFrames, so the claim needs the amendment
0 ≤ durationFrames. -/
theorem addPitchBends_negative_duration_counterexample :
    (∀ r ∈ cexContours, r.length = 264) ∧
    0 ≤ cexNote.startFrame ∧
    cexNote.startFrame + cexNote.durationFrames ≤ (cexContours.length : ℤ) ∧
    21 ≤ cexNote.pitchMidi ∧ cexNote.pitchMidi ≤ 108 ∧
    addPitchBendsToNoteEvents cexContours [cexNote] 25
      = [{ cexNote with pitchBends := some [] }] ∧
    ((0 : ℤ) ≠ cexNote.durationFrames) := by
  refine ⟨?_, by decide, by decide, by decide, by decide, ?_, by decide⟩
  · intro r hr
    rw [List.mem_singleton.1 hr]
    exact List.length_replicate 264 0
  · rfl

/-- Witness for the amended C5 at a concrete input: the zero-duration note
pbWitnessNote on the 1-by-264 zero contour matrix. -/
theorem addPitchBends_length_and_range_witness :
    (∀ r ∈ cexContours, r.length = 264) ∧
    ∀ e ∈ addPitchBendsToNoteEvents cexContours [pbWitnessNote] 25,
      ∃ bends : List ℤ, e.pitchBends = some bends ∧
        (bends.length : ℤ) = e.durationFrames ∧
        ∀ b ∈ bends, -25 ≤ b ∧ b ≤ 25 := by
  have hw : ∀ r ∈ cexContours, r.length = 264 := by
    intro r hr
    rw [List.mem_singleton.1 hr]
    exact List.length_replicate 264 0
  have hn : ∀ e ∈ [pbWitnessNote], 0 ≤ e.startFrame ∧
      e.startFrame + e.durationFrames ≤ (cexContours.length : ℤ) ∧
      0 ≤ e.durationFrames ∧ 21 ≤ e.pitchMidi ∧ e.pitchMidi ≤ 108 := by
    intro e he
    rw [List.mem_singleton.1 he]
    exact ⟨by decide, by decide, by decide, by decide, by decide⟩
  exact ⟨hw, addPitchBends_length_and_range cexContours [pbWitnessNote] hw hn⟩

/-! # constrainFrequency: entrywise characterization -/

theorem constrainSpecRow_none (r : List ℚ) :
    constrainSpecRow none none r = r := by
  apply List.ext_getElem?
  intro j
  rw [constrainSpecRow, idxMap_getElem?]
  rcases r[j]? with _ | v
  · rfl
  · rfl

theorem jsFill_max_spec_row (r : List ℚ) (mi : ℤ) (hmi : 0 ≤ mi) :
    jsFill r 0 mi (r.length : ℤ) = constrainSpecRow (some mi) none r := by
  apply List.ext_getElem?
  intro j
  rw [jsFill_getElem?, constrainSpecRow, idxMap_getElem?]
  rcases hj : r[j]? with _ | v
  · rfl
  · have hjlen : j < r.length := by
      by_contra h
      rw [List.getElem?_eq_none (by omega)] at hj
      cases hj
    have e1 : jsNormIdx r.length (r.length : ℤ) = r.length := by
      unfold jsNormIdx
      rw [if_neg (by omega)]
      omega
    have e2 : jsNormIdx r.length mi = min mi.toNat r.length := by
      unfold jsNormIdx
      rw [if_neg (by omega)]
    simp only [Option.map_some', e1, e2, Option.any, Bool.or_false,
      decide_eq_true_eq]
    by_cases hc : mi ≤ (j : ℤ)
    · rw [if_pos ⟨by omega, hjlen⟩, if_pos hc]
    · rw [if_neg (by omega), if_neg hc]

theorem jsFill_min_spec_row (r : List ℚ) (ni : ℤ) (hni : 0 ≤ ni) :
    jsFill r 0 0 ni = constrainSpecRow none (some ni) r := by
  apply List.ext_getElem?
  intro j
  rw [jsFill_getElem?, constrainSpecRow, idxMap_getElem?]
  rcases hj : r[j]? with _ | v
  · rfl
  · have hjlen : j < r.length := by
      by_contra h
      rw [List.getElem?_eq_none (by omega)] at hj
      cases hj
    have e0 : jsNormIdx r.length 0 = 0 := by
      unfold jsNormIdx
      rw [if_neg (by omega)]
      omega
    have e2 : jsNormIdx r.length ni = min ni.toNat r.length := by
      unfold jsNormIdx
      rw [if_neg (by omega)]
    simp only [Option.map_some', e0, e2, Option.any, Bool.false_or,
      decide_eq_true_eq]
    by_cases hc : (j : ℤ) < ni
    · rw [if_pos ⟨Nat.zero_le j, by omega⟩, if_pos hc]
    · rw [if_neg (by omega), if_neg hc]

theorem jsFill_both_spec_row (r : List ℚ) (mi ni : ℤ) (hmi : 0 ≤ mi)
    (hni : 0 ≤ ni) :
    jsFill (jsFill r 0 mi (r.length : ℤ)) 0 0 ni
      = constrainSpecRow (some mi) (some ni) r := by
  apply List.ext_getElem?
  intro j
  rw [constrainSpecRow, idxMap_getElem?]
  simp only [jsFill_getElem?, jsFill_length]
  rcases hj : r[j]? with _ | v
  · rfl
  · have hjlen : j < r.length := by
      by_contra h
      rw [List.getElem?_eq_none (by omega)] at hj
      cases hj
    have e0 : jsNormIdx r.length 0 = 0 := by
      unfold jsNormIdx
      rw [if_neg (by omega)]
      omega
    have e1 : jsNormIdx r.length (r.length : ℤ) = r.length := by
      unfold jsNormIdx
      rw [if_neg (by omega)]
      omega
    have e2 : jsNormIdx r.length ni = min ni.toNat r.length := by
      unfold jsNormIdx
      rw [if_neg (by omega)]
    have e3 : jsNormIdx r.length mi = min mi.toNat r.length := by
      unfold jsNormIdx
      rw [if_neg (by omega)]
    simp only [Option.map_some', e0, e1, e2, e3, Option.any,
      Bool.or_eq_true, decide_eq_true_eq]
    by_cases hc2 : (j : ℤ) < ni
    · rw [if_pos ⟨Nat.zero_le j, by omega⟩, if_pos (Or.inr hc2)]
    · rw [if_neg (by omega)]
      by_cases hc1 : mi ≤ (j : ℤ)
      · rw [if_pos ⟨by omega, hjlen⟩, if_pos (Or.inl hc1)]
      · rw [if_neg (by omega), if_neg (by omega)]

theorem constrainFrequencyIdx_spec (onsets frames : Matrix)
    (maxIdx minIdx : Option ℤ)
    (hmax : ∀ i, maxIdx = some i → 0 ≤ i)
    (hmin : ∀ i, minIdx = some i → 0 ≤ i) :
    constrainFrequencyIdx onsets frames maxIdx minIdx
      = (onsets.map (constrainSpecRow maxIdx minIdx),
         frames.map (constrainSpecRow maxIdx minIdx)) := by
  have hid : ∀ A : Matrix, A.map (constrainSpecRow none none) = A := by
    intro A
    have h1 : A.map (constrainSpecRow none none) = A.map id :=
      List.map_congr_left (fun r _ => constrainSpecRow_none r)
    rw [h1, List.map_id]
  rcases maxIdx with _ | mi <;> rcases minIdx with _ | ni
  · show (onsets, frames) = _
    rw [hid, hid]
  · have hni := hmin ni rfl
    have hrow : ∀ A : Matrix, A.map (fun r => jsFill r 0 0 ni)
        = A.map (constrainSpecRow none (some ni)) := fun A =>
      List.map_congr_left (fun r _ => jsFill_min_spec_row r ni hni)
    show (onsets.map (fun r => jsFill r 0 0 ni),
      frames.map (fun r => jsFill r 0 0 ni)) = _
    rw [hrow, hrow]
  · have hmi := hmax mi rfl
    have hrow : ∀ A : Matrix, A.map (fun r => jsFill r 0 mi (r.length : ℤ))
        = A.map (constrainSpecRow (some mi) none) := fun A =>
      List.map_congr_left (fun r _ => jsFill_max_spec_row r mi hmi)
    show (onsets.map (fun r => jsFill r 0 mi (r.length : ℤ)),
      frames.map (fun r => jsFill r 0 mi (r.length : ℤ))) = _
    rw [hrow, hrow]
  · have hmi := hmax mi rfl
    have hni := hmin ni rfl
    have hrow : ∀ A : Matrix,
        (A.map (fun r => jsFill r 0 mi (r.length : ℤ))).map
          (fun r => jsFill r 0 0 ni)
        = A.map (constrainSpecRow (some mi) (some ni)) := by
      intro A
      rw [List.map_map]
      exact List.map_congr_left (fun r _ => jsFill_both_spec_row r mi ni hmi hni)
    show ((onsets.map (fun r => jsFill r 0 mi (r.length : ℤ))).map
        (fun r => jsFill r 0 0 ni),
      (frames.map (fun r => jsFill r 0 mi (r.length : ℤ))).map
        (fun r => jsFill r 0 0 ni)) = _
    rw [hrow, hrow]

theorem hzToMidi_cexFreq : hzToMidi cexFreq = 69 + 7 / 10 := by
  unfold hzToMidi cexFreq
  rw [Real.logb_mul (by norm_num)
    (ne_of_gt (Real.rpow_pos_of_pos (by norm_num) _)),
    Real.logb_rpow (by norm_num) (by norm_num)]
  ring

theorem freqToFillIdx_cexFreq : freqToFillIdx cexFreq = 48 := by
  unfold freqToFillIdx
  rw [hzToMidi_cexFreq]
  unfold jsTrunc
  rw [if_pos (by norm_num)]
  rw [Int.floor_eq_iff]
  constructor <;> norm_num

theorem freqOptIdx_cexFreq : freqOptIdx (some cexFreq) = some 48 := by
  have hpos : (0 : ℝ) < cexFreq := by
    unfold cexFreq
    positivity
  show (if cexFreq = 0 then none else some (freqToFillIdx cexFreq)) = some 48
  rw [if_neg hpos.ne', freqToFillIdx_cexFreq]

/-- C3 (counterexample): for the frequency cexFreq = 440·2^((7/10)/12) Hz,
hzToMidi gives exactly 69.7, so the index the claim prescribes is
round(69.7) − 21 = 49, leaving column 48 of a ones matrix unchanged; the
code performs no rounding — the fill index 48.7 is truncated to 48 by
`Array.prototype.fill` — and column 48 is zeroed. -/
theorem constrainFrequency_trunc_vs_round_counterexample :
    jsRound (hzToMidi cexFreq) - 21 = 49 ∧
    mget (constrainFrequency onesMat88 onesMat88 (some cexFreq) none).1 0 48
      = 0 ∧
    mget onesMat88 0 48 = 1 := by
  refine ⟨?_, ?_, by decide⟩
  · have h70 : jsRound (69 + 7 / 10 : ℝ) = 70 := by
      unfold jsRound
      rw [Int.floor_eq_iff]
      constructor <;> norm_num
    rw [hzToMidi_cexFreq, h70]
    decide
  · rw [constrainFrequency, freqOptIdx_cexFreq]
    decide

/-- C3 (amended): the fill index the code uses is the TRUNCATION of
hzToMidi(freq) − 21 (`freqToFillIdx`, via `jsTrunc`), not the claim's
round(hzToMidi(freq)) − 21; with that correction — and for computed indices
that are nonnegative, since a negative fill index would count from the end
of the row rather than constrain nothing — constrainFrequency zeroes exactly
the columns j with maxFreqIdx ≤ j or j < minFreqIdx of both matrices and
leaves every other entry unchanged, a null (or zero, by JavaScript
truthiness) bound constraining nothing on its side. -/
theorem constrainFrequency_spec (onsets frames : Matrix)
    (maxFreq minFreq : Option ℝ)
    (hmax : ∀ i, freqOptIdx maxFreq = some i → 0 ≤ i)
    (hmin : ∀ i, freqOptIdx minFreq = some i → 0 ≤ i) :
    constrainFrequency onsets frames maxFreq minFreq
      = (onsets.map
          (constrainSpecRow (freqOptIdx maxFreq) (freqOptIdx minFreq)),
         frames.map
          (constrainSpecRow (freqOptIdx maxFreq) (freqOptIdx minFreq))) := by
  rw [constrainFrequency]
  exact constrainFrequencyIdx_spec onsets frames _ _ hmax hmin

/-- Witness for the amended C3 at a concrete input: the frequency cexFreq
(computed fill index 48) on the 1-by-88 ones matrices. -/
theorem constrainFrequency_spec_witness :
    (∀ i, freqOptIdx (some cexFreq) = some i → 0 ≤ i) ∧
    constrainFrequency onesMat88 onesMat88 (some cexFreq) none
      = (onesMat88.map
          (constrainSpecRow (freqOptIdx (some cexFreq))
            (freqOptIdx (none : Option ℝ))),
         onesMat88.map
          (constrainSpecRow (freqOptIdx (some cexFreq))
            (freqOptIdx (none : Option ℝ)))) := by
  have hmax : ∀ i, freqOptIdx (some cexFreq) = some i → 0 ≤ i := by
    intro i hi
    rw [freqOptIdx_cexFreq] at hi
    injection hi with h
    omega
  have hmin : ∀ i, freqOptIdx (none : Option ℝ) = some i → 0 ≤ i := by
    intro i hi
    rw [show freqOptIdx (none : Option ℝ) = none from rfl] at hi
    cases hi
  exact ⟨hmax,
    constrainFrequency_spec onesMat88 onesMat88 (some cexFreq) none hmax hmin⟩

/-! # Onset inference matches the reference definition -/

theorem getElem?_zipWith2 {α β γ : Type} (f : α → β → γ) (as : List α)
    (bs : List β) (i : ℕ) :
    (List.zipWith f as bs)[i]?
      = as[i]?.bind (fun a => bs[i]?.map (fun b => f a b)) := by
  induction as generalizing bs i with
  | nil => simp
  | cons a as ih =>
    cases bs with
    | nil => simp
    | cons b bs =>
      cases i with
      | zero => simp
      | succ n => simpa using ih bs n

theorem idxMap_congr_fun {α β : Type} {f g : ℕ → α → β}
    (h : ∀ i a, f i a = g i a) (l : List α) : idxMap f l = idxMap g l := by
  apply List.ext_getElem?
  intro i
  rw [idxMap_getElem?, idxMap_getElem?]
  cases l[i]? <;> simp [h]

theorem headI_mem {α : Type} [Inhabited α] {l : List α} (h : l ≠ []) :
    l.headI ∈ l := by
  cases l with
  | nil => exact absurd rfl h
  | cons a as => exact List.mem_cons_self a as

theorem getD_map_of_lt (g : ℚ → ℚ) (l : List ℚ) (c : ℕ) (hc : c < l.length) :
    (l.map g).getD c 0 = g (l.getD c 0) := by
  rw [List.getD_eq_getElem?_getD, List.getD_eq_getElem?_getD,
    List.getElem?_map, List.getElem?_eq_getElem hc]
  rfl

theorem getD_zipWith_of_lt (f : ℚ → ℚ → ℚ) (a b : List ℚ) (c : ℕ)
    (hca : c < a.length) (hcb : c < b.length) :
    (List.zipWith f a b).getD c 0 = f (a.getD c 0) (b.getD c 0) := by
  rw [List.getD_eq_getElem?_getD, List.getD_eq_getElem?_getD,
    List.getD_eq_getElem?_getD, getElem?_zipWith2,
    List.getElem?_eq_getElem hca, List.getElem?_eq_getElem hcb]
  rfl

theorem jsNormIdx_zero (len : ℕ) : jsNormIdx len 0 = 0 := by
  unfold jsNormIdx
  rw [if_neg (by omega)]
  omega

theorem jsNormIdx_len (len : ℕ) : jsNormIdx len (len : ℤ) = len := by
  unfold jsNormIdx
  rw [if_neg (by omega)]
  omega

theorem jsFill_full_zero (r : List ℚ) :
    jsFill r 0 0 (r.length : ℤ) = List.replicate r.length (0 : ℚ) := by
  apply List.ext_getElem?
  intro j
  rw [jsFill_getElem?, List.getElem?_replicate, jsNormIdx_zero, jsNormIdx_len]
  by_cases hj : j < r.length
  · rw [List.getElem?_eq_getElem hj, if_pos hj]
    simp only [Option.map_some']
    rw [if_pos ⟨Nat.zero_le j, hj⟩]
  · rw [List.getElem?_eq_none (by omega), if_neg hj]
    rfl

theorem mget_of_lt (A : Matrix) (r c : ℕ) (hr : r < A.length)
    (hc : c < (A[r]).length) : mget A r c = (A[r])[c] := by
  rw [mget_row (List.getElem?_eq_getElem hr), List.getD_eq_getElem?_getD,
    List.getElem?_eq_getElem hc]
  rfl

theorem hasWidth_zipWith2 (f : ℚ → ℚ → ℚ) (w : ℕ) :
    ∀ (A B : Matrix), HasWidth A w → HasWidth B w →
      HasWidth (List.zipWith (List.zipWith f) A B) w := by
  intro A
  induction A with
  | nil => intro B _ _ r hr; simp at hr
  | cons a as ih =>
    intro B hA hB
    cases B with
    | nil => intro r hr; simp at hr
    | cons b bs =>
      intro r hr
      simp only [List.zipWith_cons_cons] at hr
      rcases List.mem_cons.1 hr with rfl | hr
      · rw [List.length_zipWith, hA a (List.mem_cons_self a as),
          hB b (List.mem_cons_self b bs), min_self]
      · exact ih bs (fun x hx => hA x (List.mem_cons_of_mem a hx))
          (fun x hx => hB x (List.mem_cons_of_mem b hx)) r hr

theorem framesShiftedSpec_length (frames : Matrix) (n : ℕ) :
    (framesShiftedSpec frames n).length = frames.length := by
  unfold framesShiftedSpec
  rw [List.length_take, List.length_append, List.length_replicate]
  omega

theorem hasWidth_framesShiftedSpec (frames : Matrix) (w n : ℕ)
    (hfw : HasWidth frames w) (hne : frames ≠ []) :
    HasWidth (framesShiftedSpec frames n) w := by
  intro r hr
  unfold framesShiftedSpec at hr
  rcases List.mem_append.1 (List.mem_of_mem_take hr) with h | h
  · rw [List.eq_of_mem_replicate h, List.length_replicate]
    exact hfw frames.headI (headI_mem hne)
  · exact hfw r h

theorem hasWidth_map_map (g : ℚ → ℚ) (A : Matrix) (w : ℕ)
    (hA : HasWidth A w) : HasWidth (A.map (fun row => row.map g)) w := by
  intro r hr
  rcases List.mem_map.1 hr with ⟨row, hrow, rfl⟩
  rw [List.length_map]
  exact hA row hrow

theorem hasWidth_idxMap_preserve (F : ℕ → List ℚ → List ℚ)
    (hF : ∀ i row, (F i row).length = row.length) (A : Matrix) (w : ℕ)
    (hA : HasWidth A w) : HasWidth (idxMap F A) w := by
  intro r hr
  rcases mem_idxMap.1 hr with ⟨j, hj, rfl⟩
  rw [hF]
  exact hA _ (List.getElem_mem hj)

theorem clampedDiffSpec_length (frames : Matrix) :
    (clampedDiffSpec frames).length = frames.length := by
  simp only [clampedDiffSpec, idxMap_length, List.length_map,
    List.length_zipWith, framesShiftedSpec_length]
  omega

theorem hasWidth_clampedDiffSpec (frames : Matrix) (w : ℕ)
    (hfw : HasWidth frames w) (hne : frames ≠ []) :
    HasWidth (clampedDiffSpec frames) w :=
  hasWidth_idxMap_preserve _
    (fun i row => by by_cases h : i < 2 <;> simp [h]) _ w
    (hasWidth_map_map _ _ w (hasWidth_zipWith2 min w _ _
      (hasWidth_zipWith2 (fun a b => a - b) w frames (framesShiftedSpec frames 1)
        hfw (hasWidth_framesShiftedSpec frames w 1 hfw hne))
      (hasWidth_zipWith2 (fun a b => a - b) w frames (framesShiftedSpec frames 2)
        hfw (hasWidth_framesShiftedSpec frames w 2 hfw hne))))

theorem clampedDiffSpec_nonneg (frames : Matrix) :
    ∀ row ∈ clampedDiffSpec frames, ∀ x ∈ row, 0 ≤ x := by
  intro row hrow x hx
  simp only [clampedDiffSpec] at hrow
  rcases mem_idxMap.1 hrow with ⟨j, hj, rfl⟩
  by_cases h : j < 2
  · rw [if_pos h] at hx
    rw [List.eq_of_mem_replicate hx]
  · rw [if_neg h] at hx
    have hmem := List.getElem_mem hj
    rcases List.mem_map.1 hmem with ⟨row0, _, heq⟩
    rw [← heq] at hx
    rcases List.mem_map.1 hx with ⟨v, _, rfl⟩
    exact le_max_right v 0

theorem getD_mem_of_lt {α : Type} (l : List α) (d : α) (c : ℕ)
    (hc : c < l.length) : l.getD c d ∈ l := by
  rw [List.getD_eq_getElem?_getD, List.getElem?_eq_getElem hc]
  exact List.getElem_mem hc

theorem mget_zip2_entry (f : ℚ → ℚ → ℚ) (A B : Matrix) (w r c : ℕ)
    (hA : HasWidth A w) (hB : HasWidth B w)
    (hr : r < A.length) (hrB : r < B.length) (hc : c < w) :
    mget (List.zipWith (List.zipWith f) A B) r c
      = f (mget A r c) (mget B r c) := by
  have hAr : A[r]? = some (A[r]) := List.getElem?_eq_getElem hr
  have hBr : B[r]? = some (B[r]) := List.getElem?_eq_getElem hrB
  have hz : (List.zipWith (List.zipWith f) A B)[r]?
      = some (List.zipWith f (A[r]) (B[r])) := by
    rw [getElem?_zipWith2, hAr, hBr]
    rfl
  rw [mget_row hz, mget_row hAr, mget_row hBr]
  exact getD_zipWith_of_lt f _ _ c
    (by rw [hA (A[r]) (List.getElem_mem hr)]; exact hc)
    (by rw [hB (B[r]) (List.getElem_mem hrB)]; exact hc)

theorem mget_map_map_entry (g : ℚ → ℚ) (A : Matrix) (w r c : ℕ)
    (hA : HasWidth A w) (hr : r < A.length) (hc : c < w) :
    mget (A.map (fun row => row.map g)) r c = g (mget A r c) := by
  have hAr : A[r]? = some (A[r]) := List.getElem?_eq_getElem hr
  have hm : (A.map (fun row => row.map g))[r]? = some ((A[r]).map g) := by
    rw [List.getElem?_map, hAr]
    rfl
  rw [mget_row hm, mget_row hAr]
  exact getD_map_of_lt g _ c (by rw [hA (A[r]) (List.getElem_mem hr)]; exact hc)

theorem idxMap_getD_eq_zipWith_row (f : ℚ → ℚ → ℚ) (a m : List ℚ)
    (hlen : a.length ≤ m.length) :
    idxMap (fun c v => f v (m.getD c 0)) a = List.zipWith f a m := by
  apply List.ext_getElem?
  intro c
  rw [idxMap_getElem?, getElem?_zipWith2]
  by_cases hc : c < a.length
  · rw [List.getElem?_eq_getElem hc,
      List.getElem?_eq_getElem (lt_of_lt_of_le hc hlen)]
    simp only [Option.map_some', Option.some_bind]
    rw [List.getD_eq_getElem?_getD,
      List.getElem?_eq_getElem (lt_of_lt_of_le hc hlen)]
    rfl
  · rw [List.getElem?_eq_none (by omega)]
    rfl

theorem idxMap_mget_eq_zipWith (f : ℚ → ℚ → ℚ) (A M : Matrix) (w : ℕ)
    (hA : HasWidth A w) (hM : HasWidth M w) (hlen : A.length ≤ M.length) :
    idxMap (fun r row => idxMap (fun c v => f v (mget M r c)) row) A
      = List.zipWith (List.zipWith f) A M := by
  apply List.ext_getElem?
  intro r
  rw [idxMap_getElem?, getElem?_zipWith2]
  by_cases hr : r < A.length
  · have hMr : M[r]? = some (M[r]) :=
      List.getElem?_eq_getElem (lt_of_lt_of_le hr hlen)
    rw [List.getElem?_eq_getElem hr, hMr]
    simp only [Option.map_some', Option.some_bind]
    have hfun : ∀ (c : ℕ) (v : ℚ),
        f v (mget M r c) = f v ((M[r]).getD c 0) := fun c v => by
      rw [mget_row hMr]
    rw [idxMap_congr_fun hfun]
    have hwa : (A[r]).length ≤ (M[r]).length := by
      rw [hA (A[r]) (List.getElem_mem hr),
        hM (M[r]) (List.getElem_mem (lt_of_lt_of_le hr hlen))]
    rw [idxMap_getD_eq_zipWith_row f (A[r]) (M[r]) hwa]
  · rw [List.getElem?_eq_none (by omega)]
    rfl

theorem reduceAxis0_pair_eq (f : ℚ → ℚ → ℚ) (A B : Matrix) (w : ℕ)
    (hA : HasWidth A w) (hB : HasWidth B w) (hlen : A.length ≤ B.length) :
    reduceAxis0 f [A, B] = List.zipWith (List.zipWith f) A B := by
  have h1 : reduceAxis0 f [A, B]
      = idxMap (fun r row => idxMap (fun c v => f v (mget B r c)) row) A := rfl
  rw [h1]
  exact idxMap_mget_eq_zipWith f A B w hA hB hlen

theorem diffn_eq (frames : Matrix) (w : ℕ) (hfw : HasWidth frames w)
    (hne : frames ≠ []) (n : ℕ) :
    idxMap (fun r row => idxMap (fun c v => v - mget
        ((List.replicate n (List.replicate frames.headI.length (0 : ℚ))
            ++ frames).take
          ((List.replicate n (List.replicate frames.headI.length (0 : ℚ))
            ++ frames).length - n)) r c) row)
      ((List.replicate n (List.replicate frames.headI.length (0 : ℚ))
        ++ frames).drop n)
    = List.zipWith (List.zipWith (fun a b => a - b)) frames
        (framesShiftedSpec frames n) := by
  have hdrop : (List.replicate n (List.replicate frames.headI.length (0 : ℚ))
      ++ frames).drop n = frames :=
    List.drop_left' (List.length_replicate _ _)
  have hlen2 : (List.replicate n (List.replicate frames.headI.length (0 : ℚ))
      ++ frames).length - n = frames.length := by
    rw [List.length_append, List.length_replicate]
    omega
  have htake : (List.replicate n (List.replicate frames.headI.length (0 : ℚ))
        ++ frames).take
      ((List.replicate n (List.replicate frames.headI.length (0 : ℚ))
        ++ frames).length - n)
      = framesShiftedSpec frames n := by
    rw [hlen2]
    rfl
  rw [hdrop, htake]
  exact idxMap_mget_eq_zipWith (fun a b => a - b) frames
    (framesShiftedSpec frames n) w hfw
    (hasWidth_framesShiftedSpec frames w n hfw hne)
    (le_of_eq (framesShiftedSpec_length frames n).symm)

theorem getInferredOnsets_eq_spec (onsets frames : Matrix) (w : ℕ)
    (how : HasWidth onsets w) (hfw : HasWidth frames w)
    (hlen : onsets.length = frames.length) (hne : frames ≠ []) :
    getInferredOnsets onsets frames 2 = inferredOnsetsSpec onsets frames := by
  have hD : ∀ n, HasWidth (List.zipWith (List.zipWith (fun a b => a - b))
      frames (framesShiftedSpec frames n)) w := fun n =>
    hasWidth_zipWith2 (fun a b => a - b) w frames (framesShiftedSpec frames n)
      hfw (hasWidth_framesShiftedSpec frames w n hfw hne)
  have hzf : ∀ (i : ℕ) (a : List ℚ),
      (if i < 2 then jsFill a 0 0 (a.length : ℤ) else a)
        = (if i < 2 then List.replicate a.length (0 : ℚ) else a) := by
    intro i a
    by_cases h : i < 2
    · rw [if_pos h, if_pos h, jsFill_full_zero]
    · rw [if_neg h, if_neg h]
  simp only [getInferredOnsets]
  rw [show List.range 2 = [0, 1] from rfl]
  simp only [List.map_cons, List.map_nil]
  rw [diffn_eq frames w hfw hne (0 + 1), diffn_eq frames w hfw hne (1 + 1),
    show ((0 : ℕ) + 1) = 1 from rfl, show ((1 : ℕ) + 1) = 2 from rfl]
  rw [min3dForAxis0, reduceAxis0_pair_eq min
    (List.zipWith (List.zipWith (fun a b => a - b)) frames
      (framesShiftedSpec frames 1))
    (List.zipWith (List.zipWith (fun a b => a - b)) frames
      (framesShiftedSpec frames 2))
    w (hD 1) (hD 2)
    (by simp [List.length_zipWith, framesShiftedSpec_length])]
  rw [idxMap_congr_fun hzf]
  have hfold : idxMap (fun r row =>
        if r < 2 then List.replicate row.length (0 : ℚ) else row)
      ((List.zipWith (List.zipWith min)
          (List.zipWith (List.zipWith (fun a b => a - b)) frames
            (framesShiftedSpec frames 1))
          (List.zipWith (List.zipWith (fun a b => a - b)) frames
            (framesShiftedSpec frames 2))).map
        (fun row => row.map (fun v => max v 0)))
      = clampedDiffSpec frames := rfl
  rw [hfold]
  rw [show (fun v => globalMax onsets * v / globalMax (clampedDiffSpec frames))
      = (fun v => globalMax onsets / globalMax (clampedDiffSpec frames) * v)
    from funext (fun v => (div_mul_eq_mul_div _ _ _).symm)]
  have hresw : HasWidth ((clampedDiffSpec frames).map
      (fun row => row.map (fun v =>
        globalMax onsets / globalMax (clampedDiffSpec frames) * v))) w :=
    hasWidth_map_map _ _ w (hasWidth_clampedDiffSpec frames w hfw hne)
  rw [max3dForAxis0, reduceAxis0_pair_eq max onsets
    ((clampedDiffSpec frames).map (fun row => row.map (fun v =>
      globalMax onsets / globalMax (clampedDiffSpec frames) * v)))
    w how hresw
    (by rw [List.length_map, clampedDiffSpec_length, hlen])]
  rfl

/-- C6: for onsets and frames of the same rectangular shape with more than 2
rows, when the clamped shift-difference matrix has at least one positive
entry, getInferredOnsets (with its default nDiff = 2) equals the reference
definition inferredOnsetsSpec assembled from the claim text; consequently
every output entry is at least the corresponding onsets entry, and the
output's global maximum equals that of onsets. -/
theorem getInferredOnsets_matches_reference (onsets frames : Matrix) (w : ℕ)
    (how : HasWidth onsets w) (hfw : HasWidth frames w)
    (hlen : onsets.length = frames.length) (hT : 2 < frames.length)
    (hpos : ∃ r c, 0 < mget (clampedDiffSpec frames) r c) :
    getInferredOnsets onsets frames 2 = inferredOnsetsSpec onsets frames ∧
    (∀ r c, r < onsets.length → c < w →
      mget onsets r c ≤ mget (getInferredOnsets onsets frames 2) r c) ∧
    globalMax (getInferredOnsets onsets frames 2) = globalMax onsets := by
  have hne : frames ≠ [] := by
    intro h
    rw [h] at hT
    simp at hT
  have heq := getInferredOnsets_eq_spec onsets frames w how hfw hlen hne
  set Z := clampedDiffSpec frames with hZdef
  set RES := Z.map (fun row => row.map (fun v =>
    globalMax onsets / globalMax Z * v)) with hRdef
  have hspec : inferredOnsetsSpec onsets frames
      = List.zipWith (List.zipWith max) onsets RES := rfl
  have hZw : HasWidth Z w := hasWidth_clampedDiffSpec frames w hfw hne
  have hZlen : Z.length = onsets.length :=
    (clampedDiffSpec_length frames).trans hlen.symm
  have hRw : HasWidth RES w := hasWidth_map_map _ _ w hZw
  have hRlen : RES.length = onsets.length := by
    rw [hRdef, List.length_map]
    exact hZlen
  have hgZ : 0 < globalMax Z := by
    obtain ⟨r, c, hrc⟩ := hpos
    obtain ⟨hr, hc⟩ := mget_ne_zero (ne_of_gt hrc)
    have hrow : Z.getD r [] ∈ Z := getD_mem_of_lt Z [] r hr
    have hx : mget Z r c ∈ Z.getD r [] := getD_mem_of_lt (Z.getD r []) 0 c hc
    exact lt_of_lt_of_le hrc (le_globalMax hrow hx)
  refine ⟨heq, ?_, ?_⟩
  · intro r c hr hc
    rw [heq, hspec,
      mget_zip2_entry max onsets RES w r c how hRw hr (by rw [hRlen]; exact hr) hc]
    exact le_max_left _ _
  · rw [heq, hspec]
    apply le_antisymm
    · apply globalMax_le (globalMax_nonneg onsets)
      intro row hrow x hx
      rcases List.mem_iff_getElem.1 hrow with ⟨r, hrl, rfl⟩
      have hrO : r < onsets.length := by
        rw [List.length_zipWith] at hrl
        omega
      have hrR : r < RES.length := by
        rw [List.length_zipWith] at hrl
        omega
      have hOr : (List.zipWith (List.zipWith max) onsets RES)[r]
          = List.zipWith max (onsets[r]) (RES[r]) := List.getElem_zipWith
      rw [hOr] at hx
      rcases List.mem_iff_getElem.1 hx with ⟨c, hcl, hxeq⟩
      have hcw : c < w := by
        rw [List.length_zipWith, how (onsets[r]) (List.getElem_mem hrO)] at hcl
        omega
      have hcO : c < (onsets[r]).length := by
        rw [how (onsets[r]) (List.getElem_mem hrO)]
        exact hcw
      have hcR : c < (RES[r]).length := by
        rw [hRw (RES[r]) (List.getElem_mem hrR)]
        exact hcw
      have hrZ : r < Z.length := by
        rw [hZlen]
        exact hrO
      have hcZ : c < (Z[r]).length := by
        rw [hZw (Z[r]) (List.getElem_mem hrZ)]
        exact hcw
      have hxm : x = max (mget onsets r c) (mget RES r c) := by
        rw [← hxeq, List.getElem_zipWith,
          mget_of_lt onsets r c hrO hcO, mget_of_lt RES r c hrR hcR]
      rw [hxm]
      apply max_le
      · rw [mget_of_lt onsets r c hrO hcO]
        exact le_globalMax (List.getElem_mem hrO) (List.getElem_mem hcO)
      · have hRentry : mget RES r c
            = globalMax onsets / globalMax Z * mget Z r c :=
          mget_map_map_entry _ Z w r c hZw hrZ hcw
        rw [hRentry]
        have hv0 : 0 ≤ mget Z r c := by
          rw [mget_of_lt Z r c hrZ hcZ]
          exact clampedDiffSpec_nonneg frames (Z[r]) (List.getElem_mem hrZ) _
            (List.getElem_mem hcZ)
        have hvle : mget Z r c ≤ globalMax Z := by
          rw [mget_of_lt Z r c hrZ hcZ]
          exact le_globalMax (List.getElem_mem hrZ) (List.getElem_mem hcZ)
        calc globalMax onsets / globalMax Z * mget Z r c
            ≤ globalMax onsets / globalMax Z * globalMax Z :=
              mul_le_mul_of_nonneg_left hvle
                (div_nonneg (globalMax_nonneg onsets) (le_of_lt hgZ))
          _ = globalMax onsets := div_mul_cancel₀ _ (ne_of_gt hgZ)
    · apply globalMax_le (globalMax_nonneg _)
      intro row hrow x hx
      rcases List.mem_iff_getElem.1 hrow with ⟨r, hrO, rfl⟩
      rcases List.mem_iff_getElem.1 hx with ⟨c, hcO, hxeq⟩
      have hcw : c < w := by
        rw [how (onsets[r]) (List.getElem_mem hrO)] at hcO
        exact hcO
      have hcO2 : c < (onsets[r]).length := by
        rw [how (onsets[r]) (List.getElem_mem hrO)]
        exact hcw
      have hrR : r < RES.length := by
        rw [hRlen]
        exact hrO
      have hrOut : r < (List.zipWith (List.zipWith max) onsets RES).length := by
        rw [List.length_zipWith]
        omega
      have hcOut : c < ((List.zipWith (List.zipWith max) onsets RES)[r]).length := by
        rw [List.getElem_zipWith, List.length_zipWith,
          how (onsets[r]) (List.getElem_mem hrO), hRw (RES[r]) (List.getElem_mem hrR)]
        omega
      have hxv : x = mget onsets r c := by
        rw [← hxeq, mget_of_lt onsets r c hrO hcO2]
      rw [hxv]
      have hstep : mget onsets r c
          ≤ mget (List.zipWith (List.zipWith max) onsets RES) r c := by
        rw [mget_zip2_entry max onsets RES w r c how hRw hrO hrR hcw]
        exact le_max_left _ _
      refine le_trans hstep ?_
      rw [mget_of_lt _ r c hrOut hcOut]
      exact le_globalMax (List.getElem_mem hrOut) (List.getElem_mem hcOut)

/-- Witness for C6 at a concrete input: 3-by-1 matrices, with the positive
clamped-difference entry at row 2. -/
theorem getInferredOnsets_matches_reference_witness :
    (∃ r c, 0 < mget (clampedDiffSpec wFrames) r c) ∧
    (getInferredOnsets wOnsets wFrames 2 = inferredOnsetsSpec wOnsets wFrames ∧
     (∀ r c, r < wOnsets.length → c < 1 →
        mget wOnsets r c ≤ mget (getInferredOnsets wOnsets wFrames 2) r c) ∧
     globalMax (getInferredOnsets wOnsets wFrames 2) = globalMax wOnsets) := by
  have hpos : ∃ r c, 0 < mget (clampedDiffSpec wFrames) r c := by
    refine ⟨2, 0, ?_⟩
    rw [show mget (clampedDiffSpec wFrames) 2 0
        = max (min ((1 : ℚ) - (0 : ℚ)) ((1 : ℚ) - (0 : ℚ))) 0 from rfl]
    norm_num
  exact ⟨hpos, getInferredOnsets_matches_reference wOnsets wFrames 1
    (by decide) (by decide) (by decide) (by decide) hpos⟩

end BasicPitchTs
